import Mathlib

/-!
Shallow embedding of the calendar-puzzle solver (src/CalendarPuzzle.js and
the two solver variants in src/solver.js), together with theorems checking
the natural-language specification against the code.

Cells are (row, column) pairs of integers.  The JavaScript sources key cells
by the string "r,c"; since the string key determines the coordinate pair and
vice versa, sets and maps keyed by such strings are modelled directly on the
coordinate pairs.  BigInt bitboards are modelled as `Nat`.
-/

namespace CalendarPuzzle

abbrev Cell := Int × Int

/-- The 43 valid board cells, in the insertion order used by the constructor:
rows 0-1 columns 0-5 (months), rows 2-5 columns 0-6, row 6 columns 0-2. -/
def validCells : List Cell :=
  ((List.range 2).flatMap fun row => (List.range 6).map fun col => ((row : Int), (col : Int))) ++
  ((List.range 4).flatMap fun row => (List.range 7).map fun col => ((row : Int) + 2, (col : Int))) ++
  ((List.range 3).map fun col => ((6 : Int), (col : Int)))

/-- The month-name table of the constructor (`this.months`), as the
association list of its 12 own properties. -/
def monthsList : List (String × Cell) :=
  [("Jan", (0, 0)), ("Feb", (0, 1)), ("Mar", (0, 2)),
   ("Apr", (0, 3)), ("May", (0, 4)), ("Jun", (0, 5)),
   ("Jul", (1, 0)), ("Aug", (1, 1)), ("Sep", (1, 2)),
   ("Oct", (1, 3)), ("Nov", (1, 4)), ("Dec", (1, 5))]

/-- Lookup in the month table (`this.months[month]`). -/
def months (m : String) : Option Cell := monthsList.lookup m

/-- The day table of the constructor (`this.days`): day numbers 1..28 fill
rows 2-5 left to right, days 29..31 fill row 6 columns 0-2. -/
def daysList : List (Nat × Cell) :=
  ((List.range 4).flatMap fun i =>
    (List.range 7).map fun j => (7 * i + j + 1, ((i : Int) + 2, (j : Int)))) ++
  ((List.range 3).map fun j => ((29 + j : Nat), ((6 : Int), (j : Int))))

/-- Lookup in the day table (`this.days[day]`). -/
def dayCell (d : Nat) : Option Cell := daysList.lookup d

/-- The 8 piece shapes, exactly the coordinates produced by `parseAsciiPiece`
from the ASCII art in the constructor (row-major scan of the art). -/
def pieces : List (List Cell) :=
  [ [(0, 0), (0, 1), (1, 0), (1, 1), (2, 0), (2, 1)],
    [(0, 0), (1, 0), (2, 0), (3, 0), (3, 1)],
    [(0, 0), (0, 1), (1, 0), (1, 1), (2, 0)],
    [(0, 1), (0, 2), (1, 1), (2, 0), (2, 1)],
    [(0, 1), (1, 0), (1, 1), (2, 1), (3, 1)],
    [(0, 0), (0, 1), (1, 0), (2, 0), (2, 1)],
    [(0, 0), (0, 1), (0, 2), (1, 0), (2, 0)],
    [(0, 1), (1, 1), (2, 0), (2, 1), (3, 0)] ]

/-- The row-major comparison used by every `.sort((a, b) => ...)` call in the
sources: first by row, then by column. -/
def cellLe (a b : Cell) : Bool := a.1 < b.1 || (a.1 == b.1 && a.2 ≤ b.2)

def insertCell (x : Cell) : List Cell → List Cell
  | [] => [x]
  | y :: ys => if cellLe x y then x :: y :: ys else y :: insertCell x ys

/-- Sorting a list of cells in row-major order (the effect of the JavaScript
`sort` with the row-major comparator; the comparison is a total antisymmetric
order, so the sorted result is unique). -/
def sortCells : List Cell → List Cell
  | [] => []
  | x :: xs => insertCell x (sortCells xs)

/-- `Math.min(...)` over a nonempty list (the empty case is never used:
`normalizePiece` guards against empty pieces). -/
def listMin : List Int → Int
  | [] => 0
  | [x] => x
  | x :: y :: xs => min x (listMin (y :: xs))

/-- `normalizePiece`: translate so the minimum row and column are 0, then
sort row-major. -/
def normalizePiece (p : List Cell) : List Cell :=
  match p with
  | [] => []
  | _ =>
    let minRow := listMin (p.map Prod.fst)
    let minCol := listMin (p.map Prod.snd)
    sortCells (p.map fun rc => (rc.1 - minRow, rc.2 - minCol))

/-- `rotate90`: (r, c) goes to (c, -r). -/
def rotate90 (p : List Cell) : List Cell := p.map fun rc => (rc.2, -rc.1)

/-- `flipHorizontal`: (r, c) goes to (r, -c). -/
def flipHorizontal (p : List Cell) : List Cell := p.map fun rc => (rc.1, -rc.2)

/-- Insert into the orientation accumulator unless already present (the
JavaScript `Set` of JSON strings, which keeps first-insertion order and
compares serialized normalized offset lists, i.e. list equality). -/
def addUnique (l : List (List Cell)) (x : List Cell) : List (List Cell) :=
  if x ∈ l then l else l ++ [x]

/-- `getAllOrientations`: four rotations, each also flipped, every candidate
normalized and deduplicated in first-insertion order. -/
def getAllOrientations (piece : List Cell) : List (List Cell) :=
  (((List.range 4).foldl
    (fun acc _ =>
      let os := addUnique acc.1 (normalizePiece acc.2)
      let os' := addUnique os (normalizePiece (flipHorizontal acc.2))
      (os', rotate90 acc.2))
    (([] : List (List Cell)), piece))).1

/-- The bit index of a cell: its position in the `validCells` insertion order
(the `cellToIndex` map of `solveBacktrack`). -/
def cellIdx (x : Cell) : Nat := validCells.findIdx (fun y => y == x)

/-- The bitboard of a list of cells: OR of `1 << cellIdx` over the list. -/
def bitsOf (l : List Cell) : Nat := l.foldl (fun b x => b ||| 2 ^ cellIdx x) 0

structure Placement where
  pieceIdx : Nat
  r : Nat
  c : Nat
  bits : Nat
  cellsList : List Cell
deriving DecidableEq, Repr

/-- Translating an orientation offset by the anchor (r, c). -/
def translate (r c : Nat) (d : Cell) : Cell := ((r : Int) + d.1, (c : Int) + d.2)

/-- The per-cell validity test of the placement enumerator in
CalendarPuzzle.js: the cell is valid and differs from both forbidden cells. -/
def okCell (mc dc x : Cell) : Bool := validCells.contains x && !(x == mc) && !(x == dc)

/-- The placement built for piece `pieceIdx` from orientation `ori` anchored
at (r, c). -/
def mkPlacement (pieceIdx : Nat) (ori : List Cell) (r c : Nat) : Placement :=
  let cells := ori.map (translate r c)
  ⟨pieceIdx, r, c, bitsOf cells, cells⟩

/-- The placement enumerator: every orientation, every anchor of the 7x7
grid, emitting a placement exactly when all translated cells pass `okCell`. -/
def placementsFor (mc dc : Cell) (pieceIdx : Nat) (piece : List Cell) : List Placement :=
  (getAllOrientations piece).flatMap fun ori =>
    (List.range 7).flatMap fun r =>
      (List.range 7).filterMap fun c =>
        if (ori.map (translate r c)).all (okCell mc dc) then
          some (mkPlacement pieceIdx ori r c)
        else none

/-- The candidate lists for the 8 pieces, in piece-index order. -/
def allPlacements (mc dc : Cell) : List (List Placement) :=
  (List.range 8).map fun i => placementsFor mc dc i (pieces.getD i [])

/-- The target bitboard: all valid cells minus the two forbidden bits
(`(1n << 43n) - 1n - forbiddenBits`). -/
def targetFor (mc dc : Cell) : Nat :=
  2 ^ validCells.length - 1 - (2 ^ cellIdx mc ||| 2 ^ cellIdx dc)

/-- The mutable search state of `solveBacktrack`: the covered bitboard and
the partial solution array. -/
structure SState where
  covered : Nat
  solution : List Placement
deriving DecidableEq, Repr

/-- Placing a piece: OR its bits into the covered set, push it. -/
def placeState (s : SState) (p : Placement) : SState :=
  ⟨s.covered ||| p.bits, s.solution ++ [p]⟩

/-- Undoing a placement: XOR its bits out, pop. -/
def undoState (s : SState) (p : Placement) : SState :=
  ⟨s.covered ^^^ p.bits, s.solution.dropLast⟩

/-- The `for (const placement of piecePlacements)` loop of `backtrack`:
skip overlapping candidates, otherwise place, run the rest of the search
(`next`, the recursive `backtrack(pieceIdx + 1)` call), and on failure undo
and continue with the state returned by the failed call. -/
def tryPlace (next : SState → Bool × SState) : List Placement → SState → Bool × SState
  | [], s => (false, s)
  | p :: ps', s =>
    if s.covered &&& p.bits == 0 then
      match next (placeState s p) with
      | (true, s2) => (true, s2)
      | (false, s2) => tryPlace next ps' (undoState s2 p)
    else
      tryPlace next ps' s

/-- The recursive `backtrack(pieceIdx)` of CalendarPuzzle.js, with the
mutable state passed explicitly.  The remaining candidate lists stand for
the piece indices `pieceIdx..7`; the empty list is the `pieceIdx === 8`
terminal, which compares the covered bitboard with the target. -/
def backtrack (target : Nat) : List (List Placement) → SState → Bool × SState
  | [], s => (s.covered == target, s)
  | ps :: rest, s => tryPlace (backtrack target rest) ps s

structure SolutionRec where
  pieceIdx : Nat
  r : Nat
  c : Nat
  cells : List Cell
deriving DecidableEq, Repr

/-- The result mapping of a found solution: each placement is reported with
its cells sorted row-major (`slice().sort(...)`). -/
def toSolutionRec (p : Placement) : SolutionRec :=
  ⟨p.pieceIdx, p.r, p.c, sortCells p.cellsList⟩

def invalidMsg (month : String) (day : Nat) : String :=
  "Invalid month or day: " ++ month ++ ", " ++ toString day

/-- `solveBacktrack(month, day)` of CalendarPuzzle.js.  A thrown `Error`
is modelled as `Except.error` carrying the message; `null` is `none`. -/
def solveBacktrack (month : String) (day : Nat) :
    Except String (Option (List SolutionRec)) :=
  match months month, dayCell day with
  | some mc, some dc =>
    if validCells.contains mc && validCells.contains dc then
      match backtrack (targetFor mc dc) (allPlacements mc dc) ⟨0, []⟩ with
      | (true, s) => .ok (some (s.solution.map toSolutionRec))
      | (false, _) => .ok none
    else .error "Invalid cell indices for month or day"
  | _, _ => .error (invalidMsg month day)

/-! ### Derived definitions used by the verification -/

/-- The row-major order as a relation. -/
def cellLeP (a b : Cell) : Prop := cellLe a b = true

instance : IsAntisymm Cell cellLeP where
  antisymm a b h1 h2 := by
    rcases a with ⟨a1, a2⟩
    rcases b with ⟨b1, b2⟩
    simp only [cellLeP, cellLe, Bool.or_eq_true, Bool.and_eq_true, decide_eq_true_eq,
      beq_iff_eq] at h1 h2
    rw [Prod.mk.injEq]
    constructor <;> omega

/-- OR of the bitboards of a list of placements. -/
def orBits (l : List Placement) : Nat := l.foldl (fun b p => b ||| p.bits) 0

/-- A legal chain of placements starting from covered set `c`: each placement
is disjoint from the covered set at the time it is placed. -/
def disjChain (c : Nat) : List Placement → Bool
  | [] => true
  | p :: ps => (c &&& p.bits == 0) && disjChain (c ||| p.bits) ps

/-- `selects ch pss`: `ch` picks exactly one placement from each candidate
list of `pss`, in order. -/
def selects : List Placement → List (List Placement) → Bool
  | [], [] => true
  | p :: ch, ps :: pss => ps.contains p && selects ch pss
  | _, _ => false

/-- The 12 month cells (rows 0-1, columns 0-5). -/
def monthCellList : List Cell := monthsList.map Prod.snd

/-- The 31 day cells (rows 2-5 full width, row 6 columns 0-2). -/
def dayCellList : List Cell := daysList.map Prod.snd

/-- The cells a successful cover must occupy: all valid cells except the two
forbidden ones. -/
def targetCells (mc dc : Cell) : List Cell :=
  validCells.filter fun x => !(x == mc) && !(x == dc)

/-- The first solution found for (Nov, 4), as the chain of raw placements in
the order the search places them. -/
def nov4Chain : List Placement :=
  [⟨0, 0, 0, 12483, [(0, 0), (0, 1), (1, 0), (1, 1), (2, 0), (2, 1)]⟩,
   ⟨1, 0, 2, 6308100, [(0, 2), (1, 2), (2, 2), (3, 2), (3, 3)]⟩,
   ⟨2, 2, 4, 1099104256, [(2, 4), (2, 5), (3, 4), (3, 5), (4, 4)]⟩,
   ⟨3, 3, 0, 51675398144, [(3, 0), (3, 1), (4, 1), (5, 1), (5, 2)]⟩,
   ⟨4, 2, 5, 556232081408, [(2, 6), (3, 6), (4, 5), (4, 6), (5, 6)]⟩,
   ⟨5, 0, 3, 2616, [(0, 3), (0, 4), (0, 5), (1, 3), (1, 5)]⟩,
   ⟨6, 4, 0, 7705238437888, [(4, 0), (5, 0), (6, 0), (6, 1), (6, 2)]⟩,
   ⟨7, 4, 2, 481841643520, [(4, 2), (4, 3), (5, 3), (5, 4), (5, 5)]⟩]


/-! ### The two solver variants of solver.js

solver.js holds two versions of the same class.  The first ("bitboard
variant") is the bitboard solver, identical to CalendarPuzzle.js except
that its validity check uses JavaScript `key.includes(forbiddenKey)` —
substring containment of string keys — instead of key equality, and that it
pushes the reported records (with cells sorted in place) during the search.
The second ("set variant") keeps the covered set as a `Set` of string keys.
String keys are modelled by their character lists; a `Set` of keys is
modelled as its insertion-order list of distinct cells. -/

def listPrefixOf : List Char → List Char → Bool
  | [], _ => true
  | _ :: _, [] => false
  | a :: as, b :: bs => a == b && listPrefixOf as bs

def listInfixOf (pat : List Char) : List Char → Bool
  | [] => listPrefixOf pat []
  | b :: bs => listPrefixOf pat (b :: bs) || listInfixOf pat bs

/-- The string key of a cell, as its character list. -/
def keyChars (x : Cell) : List Char := (toString x.1).data ++ [','] ++ (toString x.2).data

/-- JavaScript `key.includes(forbiddenKey)`. -/
def keyIncludes (x f : Cell) : Bool := listInfixOf (keyChars f) (keyChars x)

/-- The per-cell test of the solver.js bitboard variant: valid, and the key
contains neither forbidden key as a substring. -/
def okCellB (mc dc x : Cell) : Bool :=
  validCells.contains x && !(keyIncludes x mc) && !(keyIncludes x dc)

/-- The placement enumerator of the solver.js bitboard variant. -/
def placementsForB (mc dc : Cell) (pieceIdx : Nat) (piece : List Cell) : List Placement :=
  (getAllOrientations piece).flatMap fun ori =>
    (List.range 7).flatMap fun r =>
      (List.range 7).filterMap fun c =>
        if (ori.map (translate r c)).all (okCellB mc dc) then
          some (mkPlacement pieceIdx ori r c)
        else none

def allPlacementsB (mc dc : Cell) : List (List Placement) :=
  (List.range 8).map fun i => placementsForB mc dc i (pieces.getD i [])

/-- The state of the solver.js bitboard variant: covered bitboard plus the
solution records pushed during the search. -/
structure BState where
  covered : Nat
  solution : List SolutionRec
deriving DecidableEq, Repr

/-- The candidate loop of the solver.js bitboard variant.  The record is
pushed with its cells sorted row-major (`cellsList.sort(...)`; the in-place
sort only reorders the stored list, which the search never reads again, so
only the sorted value is observable). -/
def tryPlaceB (next : BState → Bool × BState) : List Placement → BState → Bool × BState
  | [], s => (false, s)
  | p :: ps', s =>
    if s.covered &&& p.bits == 0 then
      match next ⟨s.covered ||| p.bits, s.solution ++ [toSolutionRec p]⟩ with
      | (true, s2) => (true, s2)
      | (false, s2) => tryPlaceB next ps' ⟨s2.covered ^^^ p.bits, s2.solution.dropLast⟩
    else
      tryPlaceB next ps' s

def backtrackB (target : Nat) : List (List Placement) → BState → Bool × BState
  | [], s => (s.covered == target, s)
  | ps :: rest, s => tryPlaceB (backtrackB target rest) ps s

/-- `solveBacktrack` of the solver.js bitboard variant.  It performs no
month/day validation: an unresolved label crashes on an undefined property
read, modelled by the outer `none`. -/
def solveBacktrackB (month : String) (day : Nat) : Option (Option (List SolutionRec)) :=
  match months month, dayCell day with
  | some mc, some dc =>
    some (match backtrackB (targetFor mc dc) (allPlacementsB mc dc) ⟨0, []⟩ with
      | (true, s) => some s.solution
      | (false, _) => none)
  | _, _ => none

/-- A placement of the solver.js set variant: the covered keys as a `Set`
(insertion-order list of distinct cells) plus the raw cell list. -/
structure PlacementS where
  pieceIdx : Nat
  r : Nat
  c : Nat
  cells : List Cell
  cellsList : List Cell
deriving DecidableEq, Repr

/-- JavaScript `Set.add`: append if absent. -/
def setAdd (l : List Cell) (x : Cell) : List Cell :=
  if l.contains x then l else l ++ [x]

/-- `new Set(keys)`: insertion-order deduplication. -/
def dedupKeys (l : List Cell) : List Cell := l.foldl setAdd []

/-- `cells.forEach(key => covered.add(key))`. -/
def setAddAll (l : List Cell) (cells : List Cell) : List Cell :=
  cells.foldl setAdd l

/-- JavaScript `Set.delete` of one key. -/
def setDelete (l : List Cell) (x : Cell) : List Cell := l.filter fun y => !(y == x)

/-- `cells.forEach(key => covered.delete(key))`. -/
def setDeleteAll (l : List Cell) (cells : List Cell) : List Cell :=
  cells.foldl setDelete l

/-- The per-cell test of the solver.js set variant: valid and not in the
forbidden set. -/
def okCellS (mc dc x : Cell) : Bool :=
  validCells.contains x && !(x == mc || x == dc)

def mkPlacementS (pieceIdx : Nat) (ori : List Cell) (r c : Nat) : PlacementS :=
  let cells := ori.map (translate r c)
  ⟨pieceIdx, r, c, dedupKeys cells, cells⟩

/-- The placement enumerator of the solver.js set variant. -/
def placementsForS (mc dc : Cell) (pieceIdx : Nat) (piece : List Cell) : List PlacementS :=
  (getAllOrientations piece).flatMap fun ori =>
    (List.range 7).flatMap fun r =>
      (List.range 7).filterMap fun c =>
        if (ori.map (translate r c)).all (okCellS mc dc) then
          some (mkPlacementS pieceIdx ori r c)
        else none

def allPlacementsS (mc dc : Cell) : List (List PlacementS) :=
  (List.range 8).map fun i => placementsForS mc dc i (pieces.getD i [])

/-- The view of a bitboard-variant placement as a set-variant placement. -/
def toPS (p : Placement) : PlacementS :=
  ⟨p.pieceIdx, p.r, p.c, dedupKeys p.cellsList, p.cellsList⟩

/-- The state of the solver.js set variant. -/
structure TState where
  covered : List Cell
  solution : List SolutionRec
deriving DecidableEq, Repr

/-- `[...this.validCells].filter(key => !forbidden.has(key))`. -/
def targetCellsS (mc dc : Cell) : List Cell :=
  validCells.filter fun x => !(x == mc || x == dc)

/-- The candidate loop of the solver.js set variant. -/
def tryPlaceS (mc dc : Cell) (next : TState → Bool × TState) :
    List PlacementS → TState → Bool × TState
  | [], s => (false, s)
  | p :: ps', s =>
    if p.cells.any fun k => s.covered.contains k || k == mc || k == dc then
      tryPlaceS mc dc next ps' s
    else
      match next ⟨setAddAll s.covered p.cells,
          s.solution ++ [⟨p.pieceIdx, p.r, p.c, sortCells p.cellsList⟩]⟩ with
      | (true, s2) => (true, s2)
      | (false, s2) => tryPlaceS mc dc next ps' ⟨setDeleteAll s2.covered p.cells,
          s2.solution.dropLast⟩

/-- The recursion of the solver.js set variant; at index 8 it compares the
covered set with the filtered target set by size and inclusion. -/
def backtrackS (mc dc : Cell) : List (List PlacementS) → TState → Bool × TState
  | [], s => ((s.covered.length == (targetCellsS mc dc).length &&
      s.covered.all fun k => (targetCellsS mc dc).contains k), s)
  | ps :: rest, s => tryPlaceS mc dc (backtrackS mc dc rest) ps s

/-- `solveBacktrack` of the solver.js set variant (no month/day validation;
an unresolved label crashes, modelled by the outer `none`). -/
def solveBacktrackS (month : String) (day : Nat) : Option (Option (List SolutionRec)) :=
  match months month, dayCell day with
  | some mc, some dc =>
    some (match backtrackS mc dc (allPlacementsS mc dc) ⟨[], []⟩ with
      | (true, s) => some s.solution
      | (false, _) => none)
  | _, _ => none

/-- The simulation relation between the two variants' states: equal pushed
solutions, and the covered bitboard is the bitboard of the covered key set,
which holds only distinct valid non-forbidden cells. -/
def stateRel (mc dc : Cell) (sb : BState) (st : TState) : Prop :=
  sb.solution = st.solution ∧
  st.covered.Nodup ∧
  (∀ x ∈ st.covered, x ∈ validCells ∧ x ≠ mc ∧ x ≠ dc) ∧
  sb.covered = bitsOf st.covered

/-- Cell-level soundness of a candidate placement: its bitboard is the
bitboard of its cells, which are distinct, valid, and non-forbidden. -/
def goodPlacement (mc dc : Cell) (p : Placement) : Prop :=
  p.bits = bitsOf p.cellsList ∧ p.cellsList.Nodup ∧
  ∀ x ∈ p.cellsList, x ∈ validCells ∧ x ≠ mc ∧ x ≠ dc

/-! ### Bitboard helper lemmas -/

theorem testBit_false_of_land_zero {a b : Nat} (h : a &&& b = 0) (i : Nat)
    (ha : a.testBit i = true) : b.testBit i = false := by
  have h2 := congrArg (Nat.testBit · i) h
  simp only [Nat.testBit_land, Nat.zero_testBit] at h2
  rw [ha] at h2
  simpa using h2

theorem land_zero_of_testBit {a b : Nat}
    (h : ∀ i, a.testBit i = true → b.testBit i = false) : a &&& b = 0 := by
  apply Nat.eq_of_testBit_eq
  intro i
  simp only [Nat.testBit_land, Nat.zero_testBit]
  cases ha : a.testBit i with
  | false => simp
  | true => simp [h i ha]

theorem lor_land_zero {a b x : Nat} :
    (a ||| b) &&& x = 0 ↔ a &&& x = 0 ∧ b &&& x = 0 := by
  constructor
  · intro h
    constructor <;>
      refine land_zero_of_testBit fun i hi => ?_ <;>
      refine testBit_false_of_land_zero h i ?_ <;>
      simp [Nat.testBit_lor, hi]
  · intro ⟨h1, h2⟩
    refine land_zero_of_testBit fun i hi => ?_
    rw [Nat.testBit_lor] at hi
    rcases Bool.or_eq_true_iff.mp hi with h | h
    · exact testBit_false_of_land_zero h1 i h
    · exact testBit_false_of_land_zero h2 i h

theorem or_xor_cancel {a b : Nat} (h : a &&& b = 0) : (a ||| b) ^^^ b = a := by
  apply Nat.eq_of_testBit_eq
  intro i
  rw [Nat.testBit_xor, Nat.testBit_lor]
  cases hb : b.testBit i with
  | false => simp
  | true =>
    have ha : a.testBit i = false :=
      testBit_false_of_land_zero (by rwa [Nat.land_comm] at h) i hb
    simp [ha]

/-! ### Row-major sorting lemmas -/

theorem cellLe_total (a b : Cell) : cellLe a b = true ∨ cellLe b a = true := by
  simp only [cellLe, Bool.or_eq_true, Bool.and_eq_true, decide_eq_true_eq, beq_iff_eq]
  omega

theorem cellLe_trans {a b c : Cell} (h1 : cellLe a b = true) (h2 : cellLe b c = true) :
    cellLe a c = true := by
  simp only [cellLe, Bool.or_eq_true, Bool.and_eq_true, decide_eq_true_eq, beq_iff_eq] at *
  omega

theorem cellLe_antisymm {a b : Cell} (h1 : cellLe a b = true) (h2 : cellLe b a = true) :
    a = b := by
  rcases a with ⟨a1, a2⟩
  rcases b with ⟨b1, b2⟩
  simp only [cellLe, Bool.or_eq_true, Bool.and_eq_true, decide_eq_true_eq, beq_iff_eq] at *
  rw [Prod.mk.injEq]
  constructor <;> omega

theorem insertCell_perm (x : Cell) (l : List Cell) : List.Perm (insertCell x l) (x :: l) := by
  induction l with
  | nil => simp [insertCell]
  | cons y ys ih =>
    rw [insertCell]
    split
    · exact List.Perm.refl _
    · exact ((ih.cons y).trans (List.Perm.swap x y ys))

theorem sortCells_perm (l : List Cell) : List.Perm (sortCells l) l := by
  induction l with
  | nil => simp [sortCells]
  | cons x xs ih =>
    rw [sortCells]
    exact (insertCell_perm x (sortCells xs)).trans (ih.cons x)

theorem insertCell_sorted (x : Cell) {l : List Cell} (h : List.Sorted cellLeP l) :
    List.Sorted cellLeP (insertCell x l) := by
  induction l with
  | nil => simp [insertCell, List.Sorted]
  | cons y ys ih =>
    rw [insertCell]
    rcases List.sorted_cons.mp h with ⟨hy, hys⟩
    split
    · rename_i hxy
      refine List.sorted_cons.mpr ⟨?_, h⟩
      intro z hz
      rcases List.mem_cons.mp hz with rfl | hz
      · exact hxy
      · exact cellLe_trans hxy (hy z hz)
    · rename_i hxy
      have hyx : cellLe y x = true := by
        rcases cellLe_total x y with h' | h'
        · exact absurd h' hxy
        · exact h'
      refine List.sorted_cons.mpr ⟨?_, ih hys⟩
      intro z hz
      have : z ∈ x :: ys := (insertCell_perm x ys).mem_iff.mp hz
      rcases List.mem_cons.mp this with rfl | hz'
      · exact hyx
      · exact hy z hz'

theorem sortCells_sorted (l : List Cell) : List.Sorted cellLeP (sortCells l) := by
  induction l with
  | nil => simp [sortCells, List.Sorted]
  | cons x xs ih => exact insertCell_sorted x ih

theorem sortCells_eq_of_perm {l₁ l₂ : List Cell} (h : List.Perm l₁ l₂) :
    sortCells l₁ = sortCells l₂ :=
  List.eq_of_perm_of_sorted ((sortCells_perm l₁).trans (h.trans (sortCells_perm l₂).symm))
    (sortCells_sorted l₁) (sortCells_sorted l₂)

/-! ### Normalization lemmas (C7) -/

theorem listMin_le {l : List Int} {x : Int} (hx : x ∈ l) : listMin l ≤ x := by
  induction l with
  | nil => cases hx
  | cons y ys ih =>
    cases ys with
    | nil =>
      rcases List.mem_singleton.mp hx with rfl
      simp [listMin]
    | cons z zs =>
      rw [listMin]
      rcases List.mem_cons.mp hx with rfl | hx'
      · exact min_le_left _ _
      · exact le_trans (min_le_right _ _) (ih hx')

theorem listMin_mem {l : List Int} (h : l ≠ []) : listMin l ∈ l := by
  induction l with
  | nil => exact absurd rfl h
  | cons y ys ih =>
    cases ys with
    | nil => simp [listMin]
    | cons z zs =>
      rw [listMin]
      rcases min_cases y (listMin (z :: zs)) with ⟨he, _⟩ | ⟨he, _⟩
      · rw [he]; exact List.mem_cons_self _ _
      · rw [he]; exact List.mem_cons_of_mem _ (ih (by simp))

theorem listMin_eq_of_perm {l₁ l₂ : List Int} (h : List.Perm l₁ l₂) (hne : l₁ ≠ []) :
    listMin l₁ = listMin l₂ := by
  have hne₂ : l₂ ≠ [] := by
    intro he
    exact hne ((he ▸ h).eq_nil)
  have h1 : listMin l₁ ≤ listMin l₂ := listMin_le (h.mem_iff.mpr (listMin_mem hne₂))
  have h2 : listMin l₂ ≤ listMin l₁ := listMin_le (h.mem_iff.mp (listMin_mem hne))
  omega

theorem listMin_map_add (l : List Int) (d : Int) (h : l ≠ []) :
    listMin (l.map (· + d)) = listMin l + d := by
  induction l with
  | nil => exact absurd rfl h
  | cons y ys ih =>
    cases ys with
    | nil => simp [listMin]
    | cons z zs =>
      have ih' := ih (by simp)
      simp only [List.map_cons] at ih' ⊢
      rw [listMin, listMin, ih']
      omega

theorem normalizePiece_ne_nil (p : List Cell) (h : p ≠ []) :
    normalizePiece p =
      sortCells (p.map fun rc =>
        (rc.1 - listMin (p.map Prod.fst), rc.2 - listMin (p.map Prod.snd))) := by
  rcases p with _ | ⟨x, xs⟩
  · exact absurd rfl h
  · rfl

/-- C7 (translation part): normalizing a translated piece gives the same
sequence as normalizing the original. -/
theorem normalizePiece_translate (p : List Cell) (dr dc : Int) (h : p ≠ []) :
    normalizePiece (p.map fun rc => (rc.1 + dr, rc.2 + dc)) = normalizePiece p := by
  have hne : p.map (fun rc => (rc.1 + dr, rc.2 + dc)) ≠ [] := by
    simpa using h
  rw [normalizePiece_ne_nil _ hne, normalizePiece_ne_nil _ h]
  have hr : (p.map fun rc => (rc.1 + dr, rc.2 + dc)).map Prod.fst =
      (p.map Prod.fst).map (· + dr) := by
    simp [List.map_map, Function.comp]
  have hc : (p.map fun rc => (rc.1 + dr, rc.2 + dc)).map Prod.snd =
      (p.map Prod.snd).map (· + dc) := by
    simp [List.map_map, Function.comp]
  rw [hr, hc, listMin_map_add _ _ (by simpa using h), listMin_map_add _ _ (by simpa using h)]
  congr 1
  rw [List.map_map]
  apply List.map_eq_map_iff.mpr
  intro a _
  simp only [Function.comp_apply]
  rw [Prod.mk.injEq]
  constructor <;> omega

/-- C7 (permutation part): any reordering of a translated piece also
normalizes to the same sequence. -/
theorem normalizePiece_perm {p q : List Cell} (h : List.Perm p q) (hne : p ≠ []) :
    normalizePiece p = normalizePiece q := by
  have hne' : q ≠ [] := by
    intro he
    exact hne ((he ▸ h).eq_nil)
  have hminr : listMin (p.map Prod.fst) = listMin (q.map Prod.fst) :=
    listMin_eq_of_perm (h.map Prod.fst) (by simpa using hne)
  have hminc : listMin (p.map Prod.snd) = listMin (q.map Prod.snd) :=
    listMin_eq_of_perm (h.map Prod.snd) (by simpa using hne)
  rw [normalizePiece_ne_nil _ hne, normalizePiece_ne_nil _ hne', hminr, hminc]
  exact sortCells_eq_of_perm (h.map _)

/-! ### Cell index and bitboard correspondence -/

theorem validCells_length : validCells.length = 43 := by decide

theorem validCells_nodup : validCells.Nodup := by decide

theorem contains_iff_mem {α : Type} [BEq α] [LawfulBEq α] {x : α} {l : List α} :
    l.contains x = true ↔ x ∈ l := List.elem_iff

theorem cellIdx_lt {x : Cell} (hx : x ∈ validCells) : cellIdx x < 43 := by
  have h : cellIdx x < validCells.length :=
    List.findIdx_lt_length_of_exists ⟨x, hx, by simp⟩
  rwa [validCells_length] at h

theorem cellIdx_inj {x y : Cell} (hx : x ∈ validCells) (hy : y ∈ validCells)
    (h : cellIdx x = cellIdx y) : x = y := by
  have hlx : cellIdx x < validCells.length :=
    List.findIdx_lt_length_of_exists ⟨x, hx, by simp⟩
  have hly : cellIdx y < validCells.length :=
    List.findIdx_lt_length_of_exists ⟨y, hy, by simp⟩
  have h1 : (validCells.get ⟨cellIdx x, hlx⟩ == x) = true :=
    @List.findIdx_getElem _ (fun z => z == x) validCells hlx
  have h2 : (validCells.get ⟨cellIdx y, hly⟩ == y) = true :=
    @List.findIdx_getElem _ (fun z => z == y) validCells hly
  have hg : validCells.get ⟨cellIdx x, hlx⟩ = validCells.get ⟨cellIdx y, hly⟩ := by
    congr 1
    exact Fin.ext h
  rw [hg] at h1
  exact (eq_of_beq h1).symm.trans (eq_of_beq h2)

theorem foldl_or_testBit {α : Type} (f : α → Nat) (l : List α) (x : Nat) (i : Nat) :
    (l.foldl (fun b c => b ||| f c) x).testBit i =
      (x.testBit i || l.any fun c => (f c).testBit i) := by
  induction l generalizing x with
  | nil => simp
  | cons c cs ih => simp [List.foldl_cons, ih, Nat.testBit_lor, Bool.or_assoc]

theorem foldl_or_init {α : Type} (f : α → Nat) (l : List α) (x : Nat) :
    l.foldl (fun b c => b ||| f c) x = x ||| l.foldl (fun b c => b ||| f c) 0 := by
  induction l generalizing x with
  | nil => simp
  | cons c cs ih =>
    rw [List.foldl_cons, List.foldl_cons, ih (x ||| f c), ih (0 ||| f c)]
    simp [Nat.zero_or, Nat.or_assoc]

theorem bitsOf_testBit_iff (l : List Cell) (i : Nat) :
    (bitsOf l).testBit i = true ↔ ∃ c ∈ l, cellIdx c = i := by
  rw [bitsOf, foldl_or_testBit]
  simp [Nat.zero_testBit, Nat.testBit_two_pow, List.any_eq_true]

theorem bitsOf_cons (c : Cell) (l : List Cell) :
    bitsOf (c :: l) = 2 ^ cellIdx c ||| bitsOf l := by
  rw [bitsOf, List.foldl_cons, foldl_or_init]
  simp [Nat.zero_or, bitsOf]

theorem bitsOf_append (l₁ l₂ : List Cell) :
    bitsOf (l₁ ++ l₂) = bitsOf l₁ ||| bitsOf l₂ := by
  rw [bitsOf, List.foldl_append, foldl_or_init]
  rfl

theorem mem_iff_bitsOf_testBit {l : List Cell} {x : Cell}
    (hl : ∀ c ∈ l, c ∈ validCells) (hx : x ∈ validCells) :
    (bitsOf l).testBit (cellIdx x) = true ↔ x ∈ l := by
  rw [bitsOf_testBit_iff]
  constructor
  · rintro ⟨c, hc, he⟩
    rwa [cellIdx_inj (hl c hc) hx he] at hc
  · intro h
    exact ⟨x, h, rfl⟩

theorem bitsOf_eq_of_mem_iff {l₁ l₂ : List Cell}
    (h : ∀ x, x ∈ l₁ ↔ x ∈ l₂) : bitsOf l₁ = bitsOf l₂ := by
  apply Nat.eq_of_testBit_eq
  intro i
  have hiff : (bitsOf l₁).testBit i = true ↔ (bitsOf l₂).testBit i = true := by
    rw [bitsOf_testBit_iff, bitsOf_testBit_iff]
    constructor
    · rintro ⟨c, hc, rfl⟩
      exact ⟨c, (h c).mp hc, rfl⟩
    · rintro ⟨c, hc, rfl⟩
      exact ⟨c, (h c).mpr hc, rfl⟩
  cases h1 : (bitsOf l₁).testBit i <;> cases h2 : (bitsOf l₂).testBit i <;>
    simp_all

/-! ### Placement enumerator characterization (C3) -/

theorem placementsFor_mem {mc dc : Cell} {i : Nat} {piece : List Cell} {p : Placement} :
    p ∈ placementsFor mc dc i piece ↔
      ∃ ori ∈ getAllOrientations piece, ∃ r < 7, ∃ c < 7,
        (ori.map (translate r c)).all (okCell mc dc) = true ∧ p = mkPlacement i ori r c := by
  simp only [placementsFor, List.mem_flatMap, List.mem_filterMap, List.mem_range]
  constructor
  · rintro ⟨ori, ho, r, ⟨hr, c, hc, he⟩⟩
    split at he
    · rename_i hall
      exact ⟨ori, ho, r, hr, c, hc, hall, (Option.some.inj he).symm⟩
    · cases he
  · rintro ⟨ori, ho, r, hr, c, hc, hall, rfl⟩
    exact ⟨ori, ho, r, ⟨hr, c, hc, by rw [if_pos hall]⟩⟩

theorem okCell_spec {mc dc x : Cell} (h : okCell mc dc x = true) :
    x ∈ validCells ∧ x ≠ mc ∧ x ≠ dc := by
  simp only [okCell, Bool.and_eq_true, Bool.not_eq_true', beq_eq_false_iff_ne] at h
  exact ⟨contains_iff_mem.mp h.1.1, h.1.2, h.2⟩

theorem placement_fields {mc dc : Cell} {i : Nat} {piece : List Cell} {p : Placement}
    (hp : p ∈ placementsFor mc dc i piece) :
    p.pieceIdx = i ∧ p.bits = bitsOf p.cellsList ∧
      ∀ x ∈ p.cellsList, x ∈ validCells ∧ x ≠ mc ∧ x ≠ dc := by
  rcases placementsFor_mem.mp hp with ⟨ori, _, r, _, c, _, hall, rfl⟩
  refine ⟨rfl, rfl, ?_⟩
  intro x hx
  exact okCell_spec (List.all_eq_true.mp hall x hx)

/-! ### Backtracking search lemmas -/

theorem orBits_cons (p : Placement) (l : List Placement) :
    orBits (p :: l) = p.bits ||| orBits l := by
  rw [orBits, List.foldl_cons, foldl_or_init]
  simp [Nat.zero_or, orBits]

theorem orBits_append (l₁ l₂ : List Placement) :
    orBits (l₁ ++ l₂) = orBits l₁ ||| orBits l₂ := by
  rw [orBits, List.foldl_append, foldl_or_init]
  rfl

theorem undo_place {s : SState} {p : Placement} (h : s.covered &&& p.bits = 0) :
    undoState (placeState s p) p = s := by
  rcases s with ⟨cov, sol⟩
  simp [placeState, undoState, or_xor_cancel h, List.dropLast_concat]

theorem tryPlace_cons_true {next : SState → Bool × SState} {p : Placement}
    {ps' : List Placement} {s s2 : SState}
    (hd : (s.covered &&& p.bits == 0) = true)
    (hn : next (placeState s p) = (true, s2)) :
    tryPlace next (p :: ps') s = (true, s2) := by
  rw [tryPlace, if_pos hd, hn]

theorem tryPlace_cons_false {next : SState → Bool × SState} {p : Placement}
    {ps' : List Placement} {s s2 : SState}
    (hd : (s.covered &&& p.bits == 0) = true)
    (hn : next (placeState s p) = (false, s2)) :
    tryPlace next (p :: ps') s = tryPlace next ps' (undoState s2 p) := by
  rw [tryPlace, if_pos hd, hn]

theorem tryPlace_cons_skip {next : SState → Bool × SState} {p : Placement}
    {ps' : List Placement} {s : SState}
    (hd : ¬(s.covered &&& p.bits == 0) = true) :
    tryPlace next (p :: ps') s = tryPlace next ps' s := by
  rw [tryPlace, if_neg hd]

theorem tryPlace_false {next : SState → Bool × SState}
    (hnext : ∀ s s', next s = (false, s') → s' = s) :
    ∀ ps s s', tryPlace next ps s = (false, s') → s' = s := by
  intro ps
  induction ps with
  | nil =>
    intro s s' h
    simp only [tryPlace, Prod.mk.injEq] at h
    exact h.2.symm
  | cons p ps' ih =>
    intro s s' h
    by_cases hd : (s.covered &&& p.bits == 0) = true
    · have hd' : s.covered &&& p.bits = 0 := by simpa using hd
      rcases hn : next (placeState s p) with ⟨b, s2⟩
      cases b with
      | true =>
        rw [tryPlace_cons_true hd hn] at h
        simp at h
      | false =>
        rw [tryPlace_cons_false hd hn, hnext _ _ hn, undo_place hd'] at h
        exact ih _ _ h
    · rw [tryPlace_cons_skip hd] at h
      exact ih _ _ h

theorem backtrack_false (t : Nat) :
    ∀ pss s s', backtrack t pss s = (false, s') → s' = s := by
  intro pss
  induction pss with
  | nil =>
    intro s s' h
    simp only [backtrack, Prod.mk.injEq] at h
    exact h.2.symm
  | cons ps rest ih =>
    intro s s' h
    rw [backtrack] at h
    exact tryPlace_false ih ps s s' h

theorem tryPlace_true {next : SState → Bool × SState}
    (hfalse : ∀ s s', next s = (false, s') → s' = s) :
    ∀ ps s s', tryPlace next ps s = (true, s') →
      ∃ p ∈ ps, s.covered &&& p.bits = 0 ∧ next (placeState s p) = (true, s') := by
  intro ps
  induction ps with
  | nil =>
    intro s s' h
    simp [tryPlace] at h
  | cons p ps' ih =>
    intro s s' h
    by_cases hd : (s.covered &&& p.bits == 0) = true
    · have hd' : s.covered &&& p.bits = 0 := by simpa using hd
      rcases hn : next (placeState s p) with ⟨b, s2⟩
      cases b with
      | true =>
        rw [tryPlace_cons_true hd hn] at h
        simp only [Prod.mk.injEq, true_and] at h
        exact ⟨p, List.mem_cons_self p ps', hd', by rw [hn, h]⟩
      | false =>
        rw [tryPlace_cons_false hd hn, hfalse _ _ hn, undo_place hd'] at h
        rcases ih _ _ h with ⟨q, hq, hdq, hnq⟩
        exact ⟨q, List.mem_cons_of_mem _ hq, hdq, hnq⟩
    · rw [tryPlace_cons_skip hd] at h
      rcases ih _ _ h with ⟨q, hq, hdq, hnq⟩
      exact ⟨q, List.mem_cons_of_mem _ hq, hdq, hnq⟩

theorem backtrack_true (t : Nat) :
    ∀ pss s s', backtrack t pss s = (true, s') →
      ∃ ch, selects ch pss = true ∧ s'.solution = s.solution ++ ch ∧
        s'.covered = t ∧ disjChain s.covered ch = true ∧
        s.covered ||| orBits ch = t := by
  intro pss
  induction pss with
  | nil =>
    intro s s' h
    simp only [backtrack, Prod.mk.injEq] at h
    rcases h with ⟨hb, hs⟩
    subst hs
    have ht : s.covered = t := by simpa using hb
    exact ⟨[], rfl, by simp, ht, rfl, by simpa [orBits] using ht⟩
  | cons ps rest ih =>
    intro s s' h
    rw [backtrack] at h
    rcases tryPlace_true (backtrack_false t rest) ps s s' h with ⟨p, hp, hd, hn⟩
    rcases ih _ _ hn with ⟨ch, hsel, hsol, hcov, hdisj, hor⟩
    refine ⟨p :: ch, ?_, ?_, hcov, ?_, ?_⟩
    · simp only [selects, Bool.and_eq_true]
      exact ⟨contains_iff_mem.mpr hp, hsel⟩
    · rw [hsol]
      simp [placeState]
    · rw [disjChain, Bool.and_eq_true]
      refine ⟨by simpa using hd, ?_⟩
      simpa [placeState] using hdisj
    · rw [orBits_cons, ← Nat.or_assoc]
      simpa [placeState] using hor

theorem tryPlace_complete {next : SState → Bool × SState}
    (hfalse : ∀ s s', next s = (false, s') → s' = s) :
    ∀ ps s, (∃ p ∈ ps, s.covered &&& p.bits = 0 ∧ (next (placeState s p)).1 = true) →
      (tryPlace next ps s).1 = true := by
  intro ps
  induction ps with
  | nil =>
    rintro s ⟨p, hp, _⟩
    cases hp
  | cons q ps' ih =>
    rintro s ⟨p, hp, hd, hn⟩
    by_cases hq : (s.covered &&& q.bits == 0) = true
    · have hq' : s.covered &&& q.bits = 0 := by simpa using hq
      rcases hnq : next (placeState s q) with ⟨b, s2⟩
      cases b with
      | true => rw [tryPlace_cons_true hq hnq]
      | false =>
        rw [tryPlace_cons_false hq hnq, hfalse _ _ hnq, undo_place hq']
        apply ih
        rcases List.mem_cons.mp hp with rfl | hp'
        · rw [hnq] at hn
          exact absurd hn (by simp)
        · exact ⟨p, hp', hd, hn⟩
    · rw [tryPlace_cons_skip hq]
      apply ih
      rcases List.mem_cons.mp hp with rfl | hp'
      · exact absurd (by simpa using hd) hq
      · exact ⟨p, hp', hd, hn⟩

theorem backtrack_complete (t : Nat) :
    ∀ pss s ch, selects ch pss = true → disjChain s.covered ch = true →
      s.covered ||| orBits ch = t → (backtrack t pss s).1 = true := by
  intro pss
  induction pss with
  | nil =>
    intro s ch hsel hdisj hor
    cases ch with
    | nil =>
      rw [backtrack]
      simp only [orBits, List.foldl_nil, Nat.or_zero] at hor
      simp [hor]
    | cons p ch' => simp [selects] at hsel
  | cons ps rest ih =>
    intro s ch hsel hdisj hor
    cases ch with
    | nil => simp [selects] at hsel
    | cons p ch' =>
      rw [backtrack]
      simp only [selects, Bool.and_eq_true] at hsel
      rcases hsel with ⟨hpc, hsel'⟩
      rw [disjChain, Bool.and_eq_true] at hdisj
      rcases hdisj with ⟨hd, hdisj'⟩
      apply tryPlace_complete (backtrack_false t rest)
      refine ⟨p, ?_, by simpa using hd, ?_⟩
      · exact contains_iff_mem.mp hpc
      · apply ih
        · exact hsel'
        · simpa [placeState] using hdisj'
        · rw [orBits_cons, ← Nat.or_assoc] at hor
          simpa [placeState] using hor

theorem disjChain_split : ∀ {ch : List Placement} {c : Nat}, disjChain c ch = true →
    (∀ p ∈ ch, c &&& p.bits = 0) ∧ List.Pairwise (fun p q => p.bits &&& q.bits = 0) ch := by
  intro ch
  induction ch with
  | nil => simp
  | cons p ps ih =>
    intro c h
    rw [disjChain, Bool.and_eq_true] at h
    rcases h with ⟨hd, hrest⟩
    have hd' : c &&& p.bits = 0 := by simpa using hd
    rcases ih hrest with ⟨hall, hpw⟩
    constructor
    · intro q hq
      rcases List.mem_cons.mp hq with rfl | hq'
      · exact hd'
      · exact (lor_land_zero.mp (hall q hq')).1
    · refine List.Pairwise.cons ?_ hpw
      intro q hq'
      exact (lor_land_zero.mp (hall q hq')).2

theorem selects_length : ∀ {ch : List Placement} {pss : List (List Placement)},
    selects ch pss = true → ch.length = pss.length := by
  intro ch
  induction ch with
  | nil =>
    intro pss h
    cases pss with
    | nil => rfl
    | cons _ _ => simp [selects] at h
  | cons p ch' ih =>
    intro pss h
    cases pss with
    | nil => simp [selects] at h
    | cons ps pss' =>
      rw [selects, Bool.and_eq_true] at h
      simp [ih h.2]

theorem selects_get : ∀ {ch : List Placement} {pss : List (List Placement)},
    selects ch pss = true →
    ∀ i (h1 : i < ch.length) (h2 : i < pss.length), ch.get ⟨i, h1⟩ ∈ pss.get ⟨i, h2⟩ := by
  intro ch
  induction ch with
  | nil =>
    intro pss h i h1 h2
    cases h1
  | cons p ch' ih =>
    intro pss h i h1 h2
    cases pss with
    | nil => simp [selects] at h
    | cons ps pss' =>
      rw [selects, Bool.and_eq_true] at h
      cases i with
      | zero => exact contains_iff_mem.mp h.1
      | succ j => exact ih h.2 j (by simpa using h1) (by simpa using h2)

/-! ### Label lookup lemmas and concrete board facts -/

theorem lookup_mem {α β : Type} [BEq α] [LawfulBEq α] {l : List (α × β)} {d : α} {c : β}
    (h : l.lookup d = some c) : (d, c) ∈ l := by
  induction l with
  | nil => simp [List.lookup] at h
  | cons x xs ih =>
    rw [List.lookup] at h
    by_cases hd : d == x.1
    · simp only [hd, if_pos] at h
      rw [Option.some.injEq] at h
      subst h
      have h2 := eq_of_beq hd
      subst h2
      left
    · simp only [hd] at h
      right
      exact ih h

theorem lookup_eq_none_iff {α β : Type} [BEq α] [LawfulBEq α] {l : List (α × β)} {d : α} :
    l.lookup d = none ↔ d ∉ l.map Prod.fst := by
  induction l with
  | nil => simp [List.lookup]
  | cons x xs ih =>
    rw [List.lookup]
    by_cases hd : d == x.1
    · have h2 := eq_of_beq hd
      simp [hd, h2]
    · have h2 : d ≠ x.1 := fun he => hd (he ▸ beq_self_eq_true d)
      simp [hd, ih, h2]

theorem months_mem {m : String} {mc : Cell} (h : months m = some mc) :
    mc ∈ monthCellList :=
  List.mem_map_of_mem Prod.snd (lookup_mem h)

theorem dayCell_mem {d : Nat} {dc : Cell} (h : dayCell d = some dc) :
    dc ∈ dayCellList :=
  List.mem_map_of_mem Prod.snd (lookup_mem h)

theorem day_key_iff (d : Nat) : d ∈ daysList.map Prod.fst ↔ 1 ≤ d ∧ d ≤ 31 := by
  constructor
  · intro h
    exact (show ∀ k ∈ daysList.map Prod.fst, 1 ≤ k ∧ k ≤ 31 by decide) d h
  · rintro ⟨h1, h2⟩
    have hb : ∀ k, k < 32 → 1 ≤ k → k ∈ daysList.map Prod.fst := by decide
    exact hb d (by omega) h1

theorem monthCellList_valid : ∀ mc ∈ monthCellList, mc ∈ validCells := by decide

theorem dayCellList_valid : ∀ dc ∈ dayCellList, dc ∈ validCells := by decide

theorem month_day_cell_ne : ∀ mc ∈ monthCellList, ∀ dc ∈ dayCellList, mc ≠ dc := by decide

set_option maxRecDepth 4000 in
theorem target_bridge : ∀ mc ∈ monthCellList, ∀ dc ∈ dayCellList,
    targetFor mc dc = bitsOf (targetCells mc dc) := by decide

theorem targetCells_length : ∀ mc ∈ monthCellList, ∀ dc ∈ dayCellList,
    (targetCells mc dc).length = 41 := by decide

theorem targetCells_mem_iff {mc dc x : Cell} :
    x ∈ targetCells mc dc ↔ x ∈ validCells ∧ x ≠ mc ∧ x ≠ dc := by
  simp [targetCells, List.mem_filter]

theorem targetCells_nodup (mc dc : Cell) : (targetCells mc dc).Nodup :=
  validCells_nodup.filter _

theorem orientation_facts : ∀ i ∈ List.range 8,
    ∀ o ∈ getAllOrientations (pieces.getD i []),
      o.Nodup ∧ o.length = (if i = 0 then 6 else 5) := by decide

/-! ### Per-placement and per-chain facts -/

theorem okCell_iff {mc dc x : Cell} :
    okCell mc dc x = true ↔ x ∈ validCells ∧ x ≠ mc ∧ x ≠ dc := by
  constructor
  · exact okCell_spec
  · rintro ⟨h1, h2, h3⟩
    simp only [okCell, Bool.and_eq_true, Bool.not_eq_true', beq_eq_false_iff_ne]
    exact ⟨⟨contains_iff_mem.mpr h1, h2⟩, h3⟩

theorem translate_injective (r c : Nat) : Function.Injective (translate r c) := by
  rintro ⟨a1, a2⟩ ⟨b1, b2⟩ h
  simp only [translate, Prod.mk.injEq] at h
  rw [Prod.mk.injEq]
  omega

theorem allPlacements_length (mc dc : Cell) : (allPlacements mc dc).length = 8 := by
  simp [allPlacements]

theorem allPlacements_get {mc dc : Cell} {i : Nat} (h : i < (allPlacements mc dc).length) :
    (allPlacements mc dc).get ⟨i, h⟩ = placementsFor mc dc i (pieces.getD i []) := by
  simp [allPlacements]

theorem placement_facts {mc dc : Cell} {i : Nat} (hi : i < 8) {p : Placement}
    (hp : p ∈ placementsFor mc dc i (pieces.getD i [])) :
    p.pieceIdx = i ∧ p.bits = bitsOf p.cellsList ∧
    (∀ x ∈ p.cellsList, x ∈ validCells ∧ x ≠ mc ∧ x ≠ dc) ∧
    p.cellsList.Nodup ∧ p.cellsList.length = (if i = 0 then 6 else 5) := by
  rcases placementsFor_mem.mp hp with ⟨ori, ho, r, hr, c, hc, hall, rfl⟩
  have hfact := orientation_facts i (List.mem_range.mpr hi) ori ho
  refine ⟨rfl, rfl, ?_, ?_, ?_⟩
  · intro x hx
    exact okCell_spec (List.all_eq_true.mp hall x hx)
  · exact hfact.1.map (translate_injective r c)
  · simp [mkPlacement, hfact.2]

theorem selects_elem {mc dc : Cell} {ch : List Placement}
    (hsel : selects ch (allPlacements mc dc) = true) {p : Placement} (hp : p ∈ ch) :
    ∃ i, i < 8 ∧ p ∈ placementsFor mc dc i (pieces.getD i []) := by
  rcases List.mem_iff_get.mp hp with ⟨⟨i, hi⟩, rfl⟩
  have hi8 : i < (allPlacements mc dc).length := by
    have := selects_length hsel
    omega
  have hg := selects_get hsel i hi hi8
  rw [allPlacements_get hi8] at hg
  have : i < 8 := by
    rw [allPlacements_length] at hi8
    exact hi8
  exact ⟨i, this, hg⟩

theorem orBits_eq_bitsOf_flatMap {ch : List Placement}
    (h : ∀ p ∈ ch, p.bits = bitsOf p.cellsList) :
    orBits ch = bitsOf (ch.flatMap Placement.cellsList) := by
  induction ch with
  | nil => simp [orBits, bitsOf]
  | cons p ps ih =>
    rw [orBits_cons, List.flatMap_cons, bitsOf_append, h p (List.mem_cons_self p ps),
      ih fun q hq => h q (List.mem_cons_of_mem p hq)]

theorem flatMap_perm_of_perm {f g : Placement → List Cell}
    (h : ∀ p, List.Perm (f p) (g p)) (ch : List Placement) :
    List.Perm (ch.flatMap f) (ch.flatMap g) := by
  induction ch with
  | nil => simp
  | cons p ps ih =>
    rw [List.flatMap_cons, List.flatMap_cons]
    exact (h p).append ih

theorem flatMap_length_8 {ch : List Placement} (h8 : ch.length = 8)
    (hl : ∀ i (h1 : i < ch.length),
      (ch.get ⟨i, h1⟩).cellsList.length = (if i = 0 then 6 else 5)) :
    (ch.flatMap Placement.cellsList).length = 41 := by
  rcases ch with _ | ⟨p0, t0⟩
  · simp at h8
  rcases t0 with _ | ⟨p1, t1⟩
  · simp at h8
  rcases t1 with _ | ⟨p2, t2⟩
  · simp at h8
  rcases t2 with _ | ⟨p3, t3⟩
  · simp at h8
  rcases t3 with _ | ⟨p4, t4⟩
  · simp at h8
  rcases t4 with _ | ⟨p5, t5⟩
  · simp at h8
  rcases t5 with _ | ⟨p6, t6⟩
  · simp at h8
  rcases t6 with _ | ⟨p7, t7⟩
  · simp at h8
  rcases t7 with _ | ⟨p8, t8⟩
  · have e0 := hl 0 (by simp)
    have e1 := hl 1 (by simp)
    have e2 := hl 2 (by simp)
    have e3 := hl 3 (by simp)
    have e4 := hl 4 (by simp)
    have e5 := hl 5 (by simp)
    have e6 := hl 6 (by simp)
    have e7 := hl 7 (by simp)
    simp only [List.get] at e0 e1 e2 e3 e4 e5 e6 e7
    simp only [List.flatMap_cons, List.flatMap_nil, List.append_nil, List.length_append]
    norm_num at e0 e1 e2 e3 e4 e5 e6 e7
    omega
  · simp at h8

theorem chain_analysis {mc dc : Cell} (hmc : mc ∈ monthCellList) (hdc : dc ∈ dayCellList)
    {ch : List Placement} (hsel : selects ch (allPlacements mc dc) = true)
    (hdisj : disjChain 0 ch = true) :
    ch.length = 8 ∧
    (∀ i (h1 : i < ch.length), (ch.get ⟨i, h1⟩).pieceIdx = i) ∧
    List.Pairwise (fun p q => ∀ x ∈ p.cellsList, x ∉ q.cellsList) ch ∧
    (ch.flatMap Placement.cellsList).Nodup ∧
    (ch.flatMap Placement.cellsList).length = 41 ∧
    (∀ x ∈ ch.flatMap Placement.cellsList, x ∈ targetCells mc dc) ∧
    orBits ch = bitsOf (ch.flatMap Placement.cellsList) := by
  have h8 : ch.length = 8 := by
    rw [selects_length hsel, allPlacements_length]
  have hfacts : ∀ p ∈ ch, p.bits = bitsOf p.cellsList ∧
      (∀ x ∈ p.cellsList, x ∈ validCells ∧ x ≠ mc ∧ x ≠ dc) ∧ p.cellsList.Nodup := by
    intro p hp
    rcases selects_elem hsel hp with ⟨i, hi, hpf⟩
    rcases placement_facts hi hpf with ⟨_, hb, hc, hn, _⟩
    exact ⟨hb, hc, hn⟩
  have hpwbits := (disjChain_split hdisj).2
  have hpwcells : List.Pairwise (fun p q => ∀ x ∈ p.cellsList, x ∉ q.cellsList) ch := by
    refine hpwbits.imp_of_mem ?_
    intro p q hp hq hbits x hxp hxq
    rcases hfacts p hp with ⟨hbp, hcp, _⟩
    rcases hfacts q hq with ⟨hbq, hcq, _⟩
    have hxv : x ∈ validCells := (hcp x hxp).1
    have htp : p.bits.testBit (cellIdx x) = true := by
      rw [hbp]
      exact (mem_iff_bitsOf_testBit (fun c hc => (hcp c hc).1) hxv).mpr hxp
    have htq : q.bits.testBit (cellIdx x) = true := by
      rw [hbq]
      exact (mem_iff_bitsOf_testBit (fun c hc => (hcq c hc).1) hxv).mpr hxq
    have := testBit_false_of_land_zero hbits (cellIdx x) htp
    rw [htq] at this
    cases this
  refine ⟨h8, ?_, hpwcells, ?_, ?_, ?_, ?_⟩
  · intro i h1
    have hi8 : i < (allPlacements mc dc).length := by
      rw [allPlacements_length]
      omega
    have hg := selects_get hsel i h1 hi8
    rw [allPlacements_get hi8] at hg
    exact (placement_facts (by rw [allPlacements_length] at hi8; exact hi8) hg).1
  · rw [List.nodup_flatMap]
    constructor
    · intro p hp
      exact (hfacts p hp).2.2
    · refine hpwcells.imp ?_
      intro p q h x hx hx'
      exact h x hx hx'
  · refine flatMap_length_8 h8 ?_
    intro i h1
    have hi8 : i < (allPlacements mc dc).length := by
      rw [allPlacements_length]
      omega
    have hg := selects_get hsel i h1 hi8
    rw [allPlacements_get hi8] at hg
    exact (placement_facts (by rw [allPlacements_length] at hi8; exact hi8) hg).2.2.2.2
  · intro x hx
    rcases List.mem_flatMap.mp hx with ⟨p, hp, hxp⟩
    rcases hfacts p hp with ⟨_, hc, _⟩
    exact targetCells_mem_iff.mpr (hc x hxp)
  · exact orBits_eq_bitsOf_flatMap fun p hp => (hfacts p hp).1

/-- Any full legal chain's bits cover exactly the target bitboard. -/
theorem chain_covers_target {mc dc : Cell} (hmc : mc ∈ monthCellList)
    (hdc : dc ∈ dayCellList) {ch : List Placement}
    (hsel : selects ch (allPlacements mc dc) = true)
    (hdisj : disjChain 0 ch = true) :
    orBits ch = targetFor mc dc := by
  rcases chain_analysis hmc hdc hsel hdisj with ⟨h8, _, _, hnd, hlen, hsub, hor⟩
  have hsubset : ch.flatMap Placement.cellsList ⊆ targetCells mc dc := fun x hx => hsub x hx
  have hsubperm := hnd.subperm hsubset
  have hperm : List.Perm (ch.flatMap Placement.cellsList) (targetCells mc dc) :=
    hsubperm.perm_of_length_le (by rw [targetCells_length mc hmc dc hdc, hlen])
  rw [hor, target_bridge mc hmc dc hdc]
  exact bitsOf_eq_of_mem_iff fun x => hperm.mem_iff

/-! ### Reduction lemmas for solveBacktrack -/

theorem valid_pair_check {mc dc : Cell} (hmc : mc ∈ monthCellList) (hdc : dc ∈ dayCellList) :
    (validCells.contains mc && validCells.contains dc) = true := by
  rw [Bool.and_eq_true]
  exact ⟨contains_iff_mem.mpr (monthCellList_valid mc hmc),
    contains_iff_mem.mpr (dayCellList_valid dc hdc)⟩

theorem solveBacktrack_eq_of_true {month : String} {day : Nat} {mc dc : Cell} {s : SState}
    (hm : months month = some mc) (hd : dayCell day = some dc)
    (hv : (validCells.contains mc && validCells.contains dc) = true)
    (hb : backtrack (targetFor mc dc) (allPlacements mc dc) ⟨0, []⟩ = (true, s)) :
    solveBacktrack month day = .ok (some (s.solution.map toSolutionRec)) := by
  rw [solveBacktrack]
  simp only [hm, hd]
  rw [if_pos hv, hb]

theorem solveBacktrack_eq_of_false {month : String} {day : Nat} {mc dc : Cell} {s : SState}
    (hm : months month = some mc) (hd : dayCell day = some dc)
    (hv : (validCells.contains mc && validCells.contains dc) = true)
    (hb : backtrack (targetFor mc dc) (allPlacements mc dc) ⟨0, []⟩ = (false, s)) :
    solveBacktrack month day = .ok none := by
  rw [solveBacktrack]
  simp only [hm, hd]
  rw [if_pos hv, hb]

theorem solveBacktrack_eq_invalid {month : String} {day : Nat}
    (h : months month = none ∨ dayCell day = none) :
    solveBacktrack month day = .error (invalidMsg month day) := by
  rw [solveBacktrack]
  rcases h with h | h
  · rw [h]
  · rcases hm : months month with _ | mc
    · rfl
    · rw [h]

/-! ### Claim theorems -/

theorem flatMap_map_cells (ch : List Placement) :
    (ch.map toSolutionRec).flatMap SolutionRec.cells =
      ch.flatMap fun p => sortCells p.cellsList := by
  induction ch with
  | nil => rfl
  | cons p ps ih => simp [List.flatMap_cons, ih, toSolutionRec]

/-- C1: for every month name and day number that resolve to board cells, a
non-null result of solveBacktrack is an ordered sequence of exactly 8
placement records with piece ids 0..7 in increasing order, pairwise disjoint
covered-cell sets, whose union has exactly 41 cells and equals exactly the
valid board cells minus the month cell and the day cell, with every record's
cell list sorted row-major. -/
theorem solveBacktrack_solution_spec {month : String} {day : Nat} {mc dc : Cell}
    {sols : List SolutionRec}
    (hm : months month = some mc) (hd : dayCell day = some dc)
    (h : solveBacktrack month day = .ok (some sols)) :
    sols.length = 8 ∧
    (∀ i (h1 : i < sols.length), (sols.get ⟨i, h1⟩).pieceIdx = i) ∧
    List.Pairwise (fun a b => ∀ x ∈ a.cells, x ∉ b.cells) sols ∧
    (sols.flatMap SolutionRec.cells).Nodup ∧
    (sols.flatMap SolutionRec.cells).length = 41 ∧
    (∀ x, x ∈ sols.flatMap SolutionRec.cells ↔ x ∈ validCells ∧ x ≠ mc ∧ x ≠ dc) ∧
    (∀ s ∈ sols, List.Sorted cellLeP s.cells) := by
  have hmc := months_mem hm
  have hdc := dayCell_mem hd
  have hv := valid_pair_check hmc hdc
  rcases hb : backtrack (targetFor mc dc) (allPlacements mc dc) ⟨0, []⟩ with ⟨b, s⟩
  cases b with
  | false =>
    rw [solveBacktrack_eq_of_false hm hd hv hb] at h
    simp at h
  | true =>
    rw [solveBacktrack_eq_of_true hm hd hv hb] at h
    have hsols : sols = s.solution.map toSolutionRec := by
      have := Except.ok.inj h
      exact (Option.some.inj this).symm
    rcases backtrack_true _ _ _ _ hb with ⟨ch, hsel, hsol, hcov, hdisj, hor0⟩
    have hchsol : s.solution = ch := by simpa using hsol
    have hdisj0 : disjChain 0 ch = true := hdisj
    have hse : sols = ch.map toSolutionRec := by rw [hsols, hchsol]
    subst hse
    rcases chain_analysis hmc hdc hsel hdisj0 with
      ⟨h8, hidx, hpw, hnd, hlen, hsub, horb⟩
    have htarget : orBits ch = targetFor mc dc := by
      have h0 : (0 : Nat) ||| orBits ch = targetFor mc dc := hor0
      simpa using h0
    -- the two cell unions: of the returned records, and of the raw placements
    have hFm : (ch.map toSolutionRec).flatMap SolutionRec.cells =
        ch.flatMap fun p => sortCells p.cellsList := flatMap_map_cells ch
    have hFperm : List.Perm ((ch.map toSolutionRec).flatMap SolutionRec.cells)
        (ch.flatMap Placement.cellsList) := by
      rw [hFm]
      exact flatMap_perm_of_perm (fun p => sortCells_perm p.cellsList) ch
    have hchvalid : ∀ x ∈ ch.flatMap Placement.cellsList, x ∈ validCells := by
      intro x hx
      exact (targetCells_mem_iff.mp (hsub x hx)).1
    have htv : ∀ x ∈ targetCells mc dc, x ∈ validCells := by
      intro x hx
      exact (targetCells_mem_iff.mp hx).1
    have hbits_eq : bitsOf (ch.flatMap Placement.cellsList) = bitsOf (targetCells mc dc) := by
      rw [← horb, htarget]
      exact target_bridge mc hmc dc hdc
    have hmemiff : ∀ x, x ∈ ch.flatMap Placement.cellsList ↔ x ∈ targetCells mc dc := by
      intro x
      constructor
      · exact hsub x
      · intro hx
        have hxv := htv x hx
        have h1 : (bitsOf (targetCells mc dc)).testBit (cellIdx x) = true :=
          (mem_iff_bitsOf_testBit htv hxv).mpr hx
        rw [← hbits_eq] at h1
        exact (mem_iff_bitsOf_testBit hchvalid hxv).mp h1
    refine ⟨?_, ?_, ?_, ?_, ?_, ?_, ?_⟩
    · rw [List.length_map, h8]
    · intro i h1
      have hich : i < ch.length := by simpa using h1
      have hget : (ch.map toSolutionRec).get ⟨i, h1⟩ = toSolutionRec (ch.get ⟨i, hich⟩) := by
        simp [List.get_eq_getElem]
      rw [hget]
      exact hidx i hich
    · rw [List.pairwise_map]
      refine hpw.imp_of_mem ?_
      intro p q hp hq hpq x hxp hxq
      have hxp' : x ∈ p.cellsList := (sortCells_perm p.cellsList).mem_iff.mp hxp
      have hxq' : x ∈ q.cellsList := (sortCells_perm q.cellsList).mem_iff.mp hxq
      exact hpq x hxp' hxq'
    · exact (hFperm.nodup_iff).mpr hnd
    · rw [hFperm.length_eq, hlen]
    · intro x
      rw [hFperm.mem_iff, hmemiff x, targetCells_mem_iff]
    · intro srec hsrec
      rcases List.mem_map.mp hsrec with ⟨p, _, rfl⟩
      exact sortCells_sorted p.cellsList

/-- C2: whenever the backtracking recursion reaches piece index 8 through
legal transitions — a chain picking one enumerated candidate per piece, each
disjoint from the covered set at the time it is placed — the covered bit-set
equals the target bit-set, so the terminal equality check at index 8 is
always true and is only a defensive invariant check. -/
theorem terminal_check_always_true {month : String} {day : Nat} {mc dc : Cell}
    (hm : months month = some mc) (hd : dayCell day = some dc)
    {ch : List Placement} (hsel : selects ch (allPlacements mc dc) = true)
    (hdisj : disjChain 0 ch = true) :
    orBits ch = targetFor mc dc ∧ (orBits ch == targetFor mc dc) = true := by
  have h := chain_covers_target (months_mem hm) (dayCell_mem hd) hsel hdisj
  exact ⟨h, by simpa using h⟩

/-- C3: the placement enumerator emits the placement for a given orientation
and anchor if and only if every cell obtained by translating the
orientation's offsets by the anchor lies in the valid-cell set and differs
from both forbidden cells; anchors range over the full 7x7 grid and every
orientation is tried, so the characterization covers the whole enumeration. -/
theorem placement_enumerator_iff {mc dc : Cell} {i : Nat} {piece : List Cell}
    {ori : List Cell} (hori : ori ∈ getAllOrientations piece) {r c : Nat}
    (hr : r < 7) (hc : c < 7) :
    (mkPlacement i ori r c ∈ placementsFor mc dc i piece ↔
      ∀ x ∈ ori.map (translate r c), x ∈ validCells ∧ x ≠ mc ∧ x ≠ dc) ∧
    (∀ p, p ∈ placementsFor mc dc i piece ↔
      ∃ o ∈ getAllOrientations piece, ∃ r' < 7, ∃ c' < 7,
        (∀ x ∈ o.map (translate r' c'), x ∈ validCells ∧ x ≠ mc ∧ x ≠ dc) ∧
        p = mkPlacement i o r' c') := by
  constructor
  · constructor
    · intro hp x hx
      rcases placementsFor_mem.mp hp with ⟨ori', _, r', _, c', _, hall, he⟩
      have hr' : r' = r := congrArg Placement.r he.symm
      have hc' : c' = c := congrArg Placement.c he.symm
      have hcells : ori'.map (translate r' c') = ori.map (translate r c) :=
        congrArg Placement.cellsList he.symm
      rw [hcells] at hall
      exact okCell_spec (List.all_eq_true.mp hall x hx)
    · intro hok
      refine placementsFor_mem.mpr ⟨ori, hori, r, hr, c, hc, ?_, rfl⟩
      refine List.all_eq_true.mpr fun x hx => ?_
      exact okCell_iff.mpr (hok x hx)
  · intro p
    rw [placementsFor_mem]
    constructor
    · rintro ⟨o, ho, r', hr', c', hc', hall, he⟩
      refine ⟨o, ho, r', hr', c', hc', ?_, he⟩
      intro x hx
      exact okCell_spec (List.all_eq_true.mp hall x hx)
    · rintro ⟨o, ho, r', hr', c', hc', hok, he⟩
      refine ⟨o, ho, r', hr', c', hc', ?_, he⟩
      exact List.all_eq_true.mpr fun x hx => okCell_iff.mpr (hok x hx)

/-- C4: for every month argument not among the 12 recognized names and every
day argument outside 1..31, solveBacktrack fails with the invalid-label
error (before any placement enumeration or search), and for every recognized
(month, day) pair no error is raised: the call returns a value. -/
theorem invalid_label_spec :
    (∀ (month : String) (day : Nat),
      month ∉ monthsList.map Prod.fst ∨ ¬(1 ≤ day ∧ day ≤ 31) →
      solveBacktrack month day = .error (invalidMsg month day)) ∧
    (∀ (month : String) (day : Nat) (mc dc : Cell),
      months month = some mc → dayCell day = some dc →
      ∃ r, solveBacktrack month day = .ok r) := by
  constructor
  · intro month day h
    apply solveBacktrack_eq_invalid
    rcases h with h | h
    · exact Or.inl (lookup_eq_none_iff.mpr h)
    · refine Or.inr (lookup_eq_none_iff.mpr ?_)
      rw [day_key_iff]
      exact h
  · intro month day mc dc hm hd
    have hv := valid_pair_check (months_mem hm) (dayCell_mem hd)
    rcases hb : backtrack (targetFor mc dc) (allPlacements mc dc) ⟨0, []⟩ with ⟨b, s⟩
    cases b with
    | false => exact ⟨none, solveBacktrack_eq_of_false hm hd hv hb⟩
    | true => exact ⟨some (s.solution.map toSolutionRec),
        solveBacktrack_eq_of_true hm hd hv hb⟩

/-- C5: for every valid (month, day), solveBacktrack returns the distinguished
no-solution value (ok none, a value rather than an exception) if and only if
no selection of one enumerated placement per piece, pairwise legal, covers
exactly the target cell set. -/
theorem no_solution_iff {month : String} {day : Nat} {mc dc : Cell}
    (hm : months month = some mc) (hd : dayCell day = some dc) :
    solveBacktrack month day = .ok none ↔
      ¬∃ ch, selects ch (allPlacements mc dc) = true ∧ disjChain 0 ch = true ∧
        orBits ch = targetFor mc dc := by
  have hv := valid_pair_check (months_mem hm) (dayCell_mem hd)
  rcases hb : backtrack (targetFor mc dc) (allPlacements mc dc) ⟨0, []⟩ with ⟨b, s⟩
  cases b with
  | false =>
    rw [solveBacktrack_eq_of_false hm hd hv hb]
    simp only [true_iff]
    rintro ⟨ch, hsel, hdisj, hor⟩
    have hc := backtrack_complete (targetFor mc dc) (allPlacements mc dc) ⟨0, []⟩ ch hsel
      hdisj (by simpa using hor)
    rw [hb] at hc
    simp at hc
  | true =>
    rw [solveBacktrack_eq_of_true hm hd hv hb]
    constructor
    · intro habs
      simp at habs
    · intro hne
      exfalso
      rcases backtrack_true _ _ _ _ hb with ⟨ch, hsel, _, _, hdisj, hor⟩
      exact hne ⟨ch, hsel, hdisj, by simpa using hor⟩

/-- C6: every piece's orientation list is deduplicated with at most 8
entries; the 3x2 rectangle (piece 0) has exactly 2 distinct orientations and
the N pentomino (piece 7) has exactly 8. -/
theorem orientations_count_spec :
    (∀ p ∈ pieces, (getAllOrientations p).length ≤ 8 ∧ (getAllOrientations p).Nodup) ∧
    (getAllOrientations (pieces.getD 0 [])).length = 2 ∧
    (getAllOrientations (pieces.getD 7 [])).length = 8 := by
  refine ⟨by decide, by decide, by decide⟩

/-- C7: normalizePiece is a canonical form with respect to translation: a
translated offset list normalizes to the same sequence as the original, and
so does any reordering of a translated offset list, so deduplication by the
normalized sequence is sound. -/
theorem normalizePiece_canonical :
    (∀ (p : List Cell) (dr dc : Int), p ≠ [] →
      normalizePiece (p.map fun rc => (rc.1 + dr, rc.2 + dc)) = normalizePiece p) ∧
    (∀ (p q : List Cell) (dr dc : Int), p ≠ [] →
      List.Perm q (p.map fun rc => (rc.1 + dr, rc.2 + dc)) →
      normalizePiece q = normalizePiece p) := by
  constructor
  · exact fun p dr dc h => normalizePiece_translate p dr dc h
  · intro p q dr dc h hq
    have hqne : q ≠ [] := by
      intro he
      subst he
      have := hq.symm.eq_nil
      simp at this
      exact h this
    have h1 : normalizePiece q =
        normalizePiece (p.map fun rc => (rc.1 + dr, rc.2 + dc)) :=
      normalizePiece_perm hq hqne
    rw [h1]
    exact normalizePiece_translate p dr dc h

/-- C9: solveBacktrack is deterministic: repeated invocations with the same
(month, day) return identical outcomes, and two successful results have the
same placements and the same covered-cell multiset. -/
theorem solve_deterministic (month : String) (day : Nat) :
    solveBacktrack month day = solveBacktrack month day ∧
    ∀ s1 s2, solveBacktrack month day = .ok (some s1) →
      solveBacktrack month day = .ok (some s2) →
      s1 = s2 ∧ s1.flatMap SolutionRec.cells = s2.flatMap SolutionRec.cells := by
  refine ⟨rfl, ?_⟩
  intro s1 s2 h1 h2
  rw [h1] at h2
  have hs := Option.some.inj (Except.ok.inj h2)
  exact ⟨hs, by rw [hs]⟩

/-- C10: the covered bit-set always equals the OR of the bits of the
placements on the partial solution list — the invariant holds initially, is
preserved by placing, and holds at exit of every search call — and when a
recursive call fails, the XOR-undo and pop restore the state exactly. -/
theorem covered_invariant_undo_atomic :
    ((⟨0, []⟩ : SState).covered = orBits (⟨0, []⟩ : SState).solution) ∧
    (∀ (s : SState) (p : Placement), s.covered = orBits s.solution →
      (placeState s p).covered = orBits (placeState s p).solution) ∧
    (∀ (t : Nat) (rest : List (List Placement)) (s : SState) (p : Placement) (s2 : SState),
      s.covered &&& p.bits = 0 →
      backtrack t rest (placeState s p) = (false, s2) →
      undoState s2 p = s) ∧
    (∀ (t : Nat) (pss : List (List Placement)) (s : SState) (b : Bool) (s' : SState),
      s.covered = orBits s.solution → backtrack t pss s = (b, s') →
      s'.covered = orBits s'.solution) := by
  refine ⟨by simp [orBits], ?_, ?_, ?_⟩
  · intro s p h
    rw [placeState]
    simp only [orBits_append]
    rw [h, orBits_cons]
    simp [orBits, Nat.or_comm]
  · intro t rest s p s2 hd hb
    rw [backtrack_false t rest _ _ hb]
    exact undo_place hd
  · intro t pss s b s' hinv hb
    cases b with
    | false => rw [backtrack_false t pss _ _ hb]; exact hinv
    | true =>
      rcases backtrack_true t pss s s' hb with ⟨ch, _, hsol, hcov, _, hor⟩
      rw [hcov, hsol, ← hor, hinv, orBits_append]

/-! ### Equivalence of the two solver.js variants (C8) -/

set_option maxRecDepth 10000 in
theorem keyIncludes_eq_beq : ∀ x ∈ validCells, ∀ f ∈ validCells,
    keyIncludes x f = (x == f) := by decide

theorem okCellB_eq_okCell {mc dc : Cell} (hmc : mc ∈ validCells) (hdc : dc ∈ validCells) :
    okCellB mc dc = okCell mc dc := by
  funext x
  by_cases hx : validCells.contains x = true
  · have hxm : x ∈ validCells := contains_iff_mem.mp hx
    rw [okCellB, okCell, keyIncludes_eq_beq x hxm mc hmc, keyIncludes_eq_beq x hxm dc hdc]
  · have hx' : validCells.contains x = false := by simpa using hx
    rw [okCellB, okCell, hx']
    simp

theorem okCellS_eq_okCell (mc dc : Cell) : okCellS mc dc = okCell mc dc := by
  funext x
  rw [okCellS, okCell]
  cases hm : x == mc <;> cases hd : x == dc <;> simp

theorem placementsForB_eq {mc dc : Cell} (hmc : mc ∈ validCells) (hdc : dc ∈ validCells)
    (i : Nat) (piece : List Cell) :
    placementsForB mc dc i piece = placementsFor mc dc i piece := by
  rw [placementsForB, placementsFor, okCellB_eq_okCell hmc hdc]

theorem placementsForS_eq (mc dc : Cell) (i : Nat) (piece : List Cell) :
    placementsForS mc dc i piece = (placementsFor mc dc i piece).map toPS := by
  rw [placementsForS, placementsFor, okCellS_eq_okCell]
  simp only [List.map_flatMap, List.map_filterMap, apply_ite (Option.map toPS),
    Option.map_some', Option.map_none']
  rfl

theorem allPlacementsB_eq {mc dc : Cell} (hmc : mc ∈ validCells) (hdc : dc ∈ validCells) :
    allPlacementsB mc dc = allPlacements mc dc := by
  rw [allPlacementsB, allPlacements]
  exact List.map_eq_map_iff.mpr fun i _ => placementsForB_eq hmc hdc i _

theorem allPlacementsS_eq (mc dc : Cell) :
    allPlacementsS mc dc = (allPlacements mc dc).map (List.map toPS) := by
  rw [allPlacementsS, allPlacements, List.map_map]
  apply List.map_eq_map_iff.mpr
  intro i _
  rw [Function.comp_apply]
  exact placementsForS_eq mc dc i _

theorem contains_eq_false_iff {x : Cell} {l : List Cell} :
    l.contains x = false ↔ x ∉ l := by
  constructor
  · intro h hmem
    rw [contains_iff_mem.mpr hmem] at h
    cases h
  · intro h
    cases hc : l.contains x
    · rfl
    · exact absurd (contains_iff_mem.mp hc) h

theorem setAddAll_append : ∀ (cells l : List Cell), cells.Nodup →
    (∀ x ∈ cells, x ∉ l) → setAddAll l cells = l ++ cells := by
  intro cells
  induction cells with
  | nil =>
    intro l _ _
    simp [setAddAll]
  | cons c cs ih =>
    intro l hnd hdisj
    rw [setAddAll, List.foldl_cons]
    have hc : l.contains c = false :=
      contains_eq_false_iff.mpr (hdisj c (List.mem_cons_self c cs))
    rw [setAdd, hc]
    have hnd' : cs.Nodup := hnd.of_cons
    have hne : c ∉ cs := by
      rw [List.nodup_cons] at hnd
      exact hnd.1
    have hdisj' : ∀ x ∈ cs, x ∉ l ++ [c] := by
      intro x hx
      rw [List.mem_append, List.mem_singleton]
      rintro (hxl | rfl)
      · exact hdisj x (List.mem_cons_of_mem c hx) hxl
      · exact hne hx
    have := ih (l ++ [c]) hnd' hdisj'
    rw [show List.foldl setAdd (if false = true then l else l ++ [c]) cs =
      setAddAll (l ++ [c]) cs by simp [setAddAll]]
    rw [this, List.append_assoc]
    rfl

theorem setAddAll_nodup : ∀ (cells l : List Cell), l.Nodup → (setAddAll l cells).Nodup := by
  intro cells
  induction cells with
  | nil =>
    intro l h
    simpa [setAddAll] using h
  | cons c cs ih =>
    intro l h
    rw [setAddAll, List.foldl_cons]
    have hstep : (setAdd l c).Nodup := by
      rw [setAdd]
      split
      · exact h
      · rename_i hc
        have : c ∉ l := contains_eq_false_iff.mp (by simpa using hc)
        simp [List.nodup_append, h, this]
    exact ih (setAdd l c) hstep

theorem dedupKeys_nodup (l : List Cell) : (dedupKeys l).Nodup :=
  setAddAll_nodup l [] List.nodup_nil

theorem dedupKeys_eq_self {l : List Cell} (h : l.Nodup) : dedupKeys l = l := by
  have := setAddAll_append l [] h (by simp)
  rw [dedupKeys]
  rw [show l.foldl setAdd [] = setAddAll [] l from rfl, this, List.nil_append]

theorem setDeleteAll_eq_filter : ∀ (cells l : List Cell),
    setDeleteAll l cells = l.filter fun y => !(cells.contains y) := by
  intro cells
  induction cells with
  | nil =>
    intro l
    simp [setDeleteAll]
  | cons c cs ih =>
    intro l
    rw [setDeleteAll, List.foldl_cons,
      show List.foldl setDelete (setDelete l c) cs = setDeleteAll (setDelete l c) cs from rfl,
      ih, setDelete, List.filter_filter]
    apply List.filter_congr
    intro x _
    show (!(cs.contains x) && !(x == c)) = !((c :: cs).contains x)
    rw [show (c :: cs).contains x = (x == c || cs.contains x) from rfl]
    cases x == c <;> cases cs.contains x <;> rfl

theorem setDeleteAll_restore {l cells : List Cell}
    (hdisj : ∀ x ∈ cells, x ∉ l) : setDeleteAll (l ++ cells) cells = l := by
  rw [setDeleteAll_eq_filter, List.filter_append]
  have h1 : (l.filter fun y => !(cells.contains y)) = l := by
    apply List.filter_eq_self.mpr
    intro a ha
    rw [contains_eq_false_iff.mpr fun hc => hdisj a hc ha]
    rfl
  have h2 : (cells.filter fun y => !(cells.contains y)) = [] := by
    apply List.filter_eq_nil_iff.mpr
    intro a ha
    rw [contains_iff_mem.mpr ha]
    simp
  rw [h1, h2, List.append_nil]

theorem land_bitsOf_zero_iff {l₁ l₂ : List Cell}
    (h₁ : ∀ c ∈ l₁, c ∈ validCells) (h₂ : ∀ c ∈ l₂, c ∈ validCells) :
    bitsOf l₁ &&& bitsOf l₂ = 0 ↔ ∀ x ∈ l₂, x ∉ l₁ := by
  constructor
  · intro h x hx2 hx1
    have t1 := (mem_iff_bitsOf_testBit h₁ (h₂ x hx2)).mpr hx1
    have t2 := (mem_iff_bitsOf_testBit h₂ (h₂ x hx2)).mpr hx2
    have hf := testBit_false_of_land_zero h (cellIdx x) t1
    rw [t2] at hf
    cases hf
  · intro h
    refine land_zero_of_testBit fun i hi => ?_
    rcases (bitsOf_testBit_iff l₁ i).mp hi with ⟨c, hc, rfl⟩
    cases ht : (bitsOf l₂).testBit (cellIdx c)
    · rfl
    · exact absurd hc (h c ((mem_iff_bitsOf_testBit h₂ (h₁ c hc)).mp ht))

theorem targetCellsS_eq (mc dc : Cell) : targetCellsS mc dc = targetCells mc dc := by
  rw [targetCellsS, targetCells]
  apply List.filter_congr
  intro x _
  cases hm : x == mc <;> cases hd : x == dc <;> rfl

theorem terminal_equiv {mc dc : Cell} (hmc : mc ∈ monthCellList) (hdc : dc ∈ dayCellList)
    {cov : List Cell} (hnd : cov.Nodup)
    (hvals : ∀ x ∈ cov, x ∈ validCells ∧ x ≠ mc ∧ x ≠ dc) :
    (bitsOf cov == targetFor mc dc) =
      (cov.length == (targetCellsS mc dc).length &&
        cov.all fun k => (targetCellsS mc dc).contains k) := by
  rw [targetCellsS_eq]
  have hcovsub : ∀ x ∈ cov, x ∈ targetCells mc dc := fun x hx =>
    targetCells_mem_iff.mpr (hvals x hx)
  have hcv : ∀ x ∈ cov, x ∈ validCells := fun x hx => (hvals x hx).1
  have htv : ∀ x ∈ targetCells mc dc, x ∈ validCells := fun x hx =>
    (targetCells_mem_iff.mp hx).1
  have hiff : bitsOf cov = targetFor mc dc ↔
      (cov.length = (targetCells mc dc).length ∧ ∀ k ∈ cov, k ∈ targetCells mc dc) := by
    constructor
    · intro he
      have hmemiff : ∀ x, x ∈ cov ↔ x ∈ targetCells mc dc := by
        intro x
        constructor
        · exact hcovsub x
        · intro hx
          have h1 := (mem_iff_bitsOf_testBit htv (htv x hx)).mpr hx
          rw [← target_bridge mc hmc dc hdc, ← he] at h1
          exact (mem_iff_bitsOf_testBit hcv (htv x hx)).mp h1
      refine ⟨?_, hcovsub⟩
      exact ((List.perm_ext_iff_of_nodup hnd (targetCells_nodup mc dc)).mpr hmemiff).length_eq
    · rintro ⟨hlen, hsub⟩
      have hsubperm := hnd.subperm fun x hx => hsub x hx
      have hperm := hsubperm.perm_of_length_le (le_of_eq hlen.symm)
      rw [target_bridge mc hmc dc hdc]
      exact bitsOf_eq_of_mem_iff fun x => hperm.mem_iff
  have h2iff : (cov.length == (targetCells mc dc).length &&
      cov.all fun k => (targetCells mc dc).contains k) = true ↔
      (cov.length = (targetCells mc dc).length ∧ ∀ k ∈ cov, k ∈ targetCells mc dc) := by
    rw [Bool.and_eq_true, List.all_eq_true]
    constructor
    · rintro ⟨ha, hb⟩
      exact ⟨beq_iff_eq.mp ha, fun k hk => contains_iff_mem.mp (hb k hk)⟩
    · rintro ⟨ha, hb⟩
      exact ⟨by simp [ha], fun k hk => contains_iff_mem.mpr (hb k hk)⟩
  cases h1 : (bitsOf cov == targetFor mc dc) with
  | false =>
    cases h2 : (cov.length == (targetCells mc dc).length &&
        cov.all fun k => (targetCells mc dc).contains k) with
    | false => rfl
    | true =>
      exfalso
      have := hiff.mpr (h2iff.mp h2)
      rw [← beq_iff_eq] at this
      rw [h1] at this
      cases this
  | true =>
    cases h2 : (cov.length == (targetCells mc dc).length &&
        cov.all fun k => (targetCells mc dc).contains k) with
    | false =>
      exfalso
      have := h2iff.mpr (hiff.mp (by simpa using h1))
      rw [h2] at this
      cases this
    | true => rfl

theorem tryPlaceB_cons_true {next : BState → Bool × BState} {p : Placement}
    {ps' : List Placement} {s s2 : BState}
    (hd : (s.covered &&& p.bits == 0) = true)
    (hn : next ⟨s.covered ||| p.bits, s.solution ++ [toSolutionRec p]⟩ = (true, s2)) :
    tryPlaceB next (p :: ps') s = (true, s2) := by
  rw [tryPlaceB, if_pos hd, hn]

theorem tryPlaceB_cons_false {next : BState → Bool × BState} {p : Placement}
    {ps' : List Placement} {s s2 : BState}
    (hd : (s.covered &&& p.bits == 0) = true)
    (hn : next ⟨s.covered ||| p.bits, s.solution ++ [toSolutionRec p]⟩ = (false, s2)) :
    tryPlaceB next (p :: ps') s =
      tryPlaceB next ps' ⟨s2.covered ^^^ p.bits, s2.solution.dropLast⟩ := by
  rw [tryPlaceB, if_pos hd, hn]

theorem tryPlaceB_cons_skip {next : BState → Bool × BState} {p : Placement}
    {ps' : List Placement} {s : BState}
    (hd : ¬(s.covered &&& p.bits == 0) = true) :
    tryPlaceB next (p :: ps') s = tryPlaceB next ps' s := by
  rw [tryPlaceB, if_neg hd]

theorem tryPlaceB_false {next : BState → Bool × BState}
    (hnext : ∀ s s', next s = (false, s') → s' = s) :
    ∀ ps s s', tryPlaceB next ps s = (false, s') → s' = s := by
  intro ps
  induction ps with
  | nil =>
    intro s s' h
    simp only [tryPlaceB, Prod.mk.injEq] at h
    exact h.2.symm
  | cons p ps' ih =>
    intro s s' h
    by_cases hd : (s.covered &&& p.bits == 0) = true
    · have hd' : s.covered &&& p.bits = 0 := by simpa using hd
      rcases hn : next ⟨s.covered ||| p.bits, s.solution ++ [toSolutionRec p]⟩ with ⟨b, s2⟩
      cases b with
      | true =>
        rw [tryPlaceB_cons_true hd hn] at h
        simp at h
      | false =>
        rw [tryPlaceB_cons_false hd hn, hnext _ _ hn] at h
        have hre : (⟨(s.covered ||| p.bits) ^^^ p.bits,
            (s.solution ++ [toSolutionRec p]).dropLast⟩ : BState) = s := by
          rcases s with ⟨cov, sol⟩
          simp [or_xor_cancel hd', List.dropLast_concat]
        rw [hre] at h
        exact ih _ _ h
    · rw [tryPlaceB_cons_skip hd] at h
      exact ih _ _ h

theorem backtrackB_false (t : Nat) :
    ∀ pss s s', backtrackB t pss s = (false, s') → s' = s := by
  intro pss
  induction pss with
  | nil =>
    intro s s' h
    simp only [backtrackB, Prod.mk.injEq] at h
    exact h.2.symm
  | cons ps rest ih =>
    intro s s' h
    rw [backtrackB] at h
    exact tryPlaceB_false ih ps s s' h

theorem tryPlaceS_cons_skip {mc dc : Cell} {next : TState → Bool × TState} {p : PlacementS}
    {ps' : List PlacementS} {s : TState}
    (hd : (p.cells.any fun k => s.covered.contains k || k == mc || k == dc) = true) :
    tryPlaceS mc dc next (p :: ps') s = tryPlaceS mc dc next ps' s := by
  rw [tryPlaceS, if_pos hd]

theorem tryPlaceS_cons_true {mc dc : Cell} {next : TState → Bool × TState} {p : PlacementS}
    {ps' : List PlacementS} {s s2 : TState}
    (hd : ¬(p.cells.any fun k => s.covered.contains k || k == mc || k == dc) = true)
    (hn : next ⟨setAddAll s.covered p.cells,
      s.solution ++ [⟨p.pieceIdx, p.r, p.c, sortCells p.cellsList⟩]⟩ = (true, s2)) :
    tryPlaceS mc dc next (p :: ps') s = (true, s2) := by
  rw [tryPlaceS, if_neg hd, hn]

theorem tryPlaceS_cons_false {mc dc : Cell} {next : TState → Bool × TState} {p : PlacementS}
    {ps' : List PlacementS} {s s2 : TState}
    (hd : ¬(p.cells.any fun k => s.covered.contains k || k == mc || k == dc) = true)
    (hn : next ⟨setAddAll s.covered p.cells,
      s.solution ++ [⟨p.pieceIdx, p.r, p.c, sortCells p.cellsList⟩]⟩ = (false, s2)) :
    tryPlaceS mc dc next (p :: ps') s =
      tryPlaceS mc dc next ps' ⟨setDeleteAll s2.covered p.cells, s2.solution.dropLast⟩ := by
  rw [tryPlaceS, if_neg hd, hn]

theorem overlapS_false_disjoint {mc dc : Cell} {p : PlacementS} {cov : List Cell}
    (hd : ¬(p.cells.any fun k => cov.contains k || k == mc || k == dc) = true) :
    ∀ x ∈ p.cells, x ∉ cov := by
  intro x hx hxc
  apply hd
  rw [List.any_eq_true]
  exact ⟨x, hx, by rw [contains_iff_mem.mpr hxc]; rfl⟩

theorem tryPlaceS_false {mc dc : Cell} {next : TState → Bool × TState}
    (hnext : ∀ s s', next s = (false, s') → s' = s) :
    ∀ ps s s', (∀ p ∈ ps, p.cells.Nodup) →
      tryPlaceS mc dc next ps s = (false, s') → s' = s := by
  intro ps
  induction ps with
  | nil =>
    intro s s' _ h
    simp only [tryPlaceS, Prod.mk.injEq] at h
    exact h.2.symm
  | cons p ps' ih =>
    intro s s' hnd h
    by_cases hd : (p.cells.any fun k => s.covered.contains k || k == mc || k == dc) = true
    · rw [tryPlaceS_cons_skip hd] at h
      exact ih _ _ (fun q hq => hnd q (List.mem_cons_of_mem p hq)) h
    · rcases hn : next ⟨setAddAll s.covered p.cells,
          s.solution ++ [⟨p.pieceIdx, p.r, p.c, sortCells p.cellsList⟩]⟩ with ⟨b, s2⟩
      cases b with
      | true =>
        rw [tryPlaceS_cons_true hd hn] at h
        simp at h
      | false =>
        rw [tryPlaceS_cons_false hd hn, hnext _ _ hn] at h
        have hdisj := overlapS_false_disjoint hd
        have hadd : setAddAll s.covered p.cells = s.covered ++ p.cells :=
          setAddAll_append p.cells s.covered (hnd p (List.mem_cons_self p ps')) hdisj
        have hre : (⟨setDeleteAll (setAddAll s.covered p.cells) p.cells,
            (s.solution ++ [(⟨p.pieceIdx, p.r, p.c, sortCells p.cellsList⟩ :
              SolutionRec)]).dropLast⟩ : TState) = s := by
          rcases s with ⟨cov, sol⟩
          simp only at hadd ⊢
          rw [hadd, setDeleteAll_restore hdisj, List.dropLast_concat]
        rw [hre] at h
        exact ih _ _ (fun q hq => hnd q (List.mem_cons_of_mem p hq)) h

theorem backtrackS_false (mc dc : Cell) :
    ∀ pss s s', (∀ ps ∈ pss, ∀ p ∈ ps, PlacementS.cells p |>.Nodup) →
      backtrackS mc dc pss s = (false, s') → s' = s := by
  intro pss
  induction pss with
  | nil =>
    intro s s' _ h
    simp only [backtrackS, Prod.mk.injEq] at h
    exact h.2.symm
  | cons ps rest ih =>
    intro s s' hnd h
    rw [backtrackS] at h
    refine tryPlaceS_false ?_ ps s s' (hnd ps (List.mem_cons_self ps rest)) h
    intro s1 s1' h1
    exact ih s1 s1' (fun qs hqs q hq => hnd qs (List.mem_cons_of_mem ps hqs) q hq) h1

theorem tryPlace_bisim {mc dc : Cell}
    {nextB : BState → Bool × BState} {nextT : TState → Bool × TState}
    (hnextBf : ∀ s s', nextB s = (false, s') → s' = s)
    (hnextTf : ∀ s s', nextT s = (false, s') → s' = s)
    (hnext : ∀ sb st, stateRel mc dc sb st →
      (nextB sb).1 = (nextT st).1 ∧ stateRel mc dc (nextB sb).2 (nextT st).2) :
    ∀ ps sb st, (∀ p ∈ ps, goodPlacement mc dc p) → stateRel mc dc sb st →
      (tryPlaceB nextB ps sb).1 = (tryPlaceS mc dc nextT (ps.map toPS) st).1 ∧
      stateRel mc dc (tryPlaceB nextB ps sb).2 (tryPlaceS mc dc nextT (ps.map toPS) st).2 := by
  intro ps
  induction ps with
  | nil =>
    intro sb st _ hrel
    exact ⟨rfl, hrel⟩
  | cons p ps' ih =>
    intro sb st hgood hrel
    obtain ⟨hsol, hnd, hvals, hcov⟩ := hrel
    obtain ⟨hbits, hcnd, hcells⟩ := hgood p (List.mem_cons_self p ps')
    have hgood' : ∀ q ∈ ps', goodPlacement mc dc q := fun q hq =>
      hgood q (List.mem_cons_of_mem p hq)
    have hcellseq : (toPS p).cells = p.cellsList := dedupKeys_eq_self hcnd
    have hcellsList : (toPS p).cellsList = p.cellsList := rfl
    have hcv : ∀ c ∈ st.covered, c ∈ validCells := fun c hc => (hvals c hc).1
    have hpv : ∀ c ∈ p.cellsList, c ∈ validCells := fun c hc => (hcells c hc).1
    have hpropB : sb.covered &&& p.bits = 0 ↔ ∀ x ∈ p.cellsList, x ∉ st.covered := by
      rw [hcov, hbits]
      exact land_bitsOf_zero_iff hcv hpv
    have hanyEq : ((toPS p).cells.any fun k => st.covered.contains k || k == mc || k == dc)
        = true ↔ ∃ x ∈ p.cellsList, x ∈ st.covered := by
      rw [hcellseq, List.any_eq_true]
      constructor
      · rintro ⟨k, hk, hor⟩
        rcases hcells k hk with ⟨_, hne1, hne2⟩
        simp only [Bool.or_eq_true, beq_iff_eq] at hor
        rcases hor with (hc | rfl) | rfl
        · exact ⟨k, hk, contains_iff_mem.mp hc⟩
        · exact absurd rfl hne1
        · exact absurd rfl hne2
      · rintro ⟨x, hx, hxc⟩
        refine ⟨x, hx, ?_⟩
        rw [contains_iff_mem.mpr hxc]
        rfl
    by_cases hdj : sb.covered &&& p.bits = 0
    · have hdjB : (sb.covered &&& p.bits == 0) = true := by simpa using hdj
      have hdjS : ¬((toPS p).cells.any fun k =>
          st.covered.contains k || k == mc || k == dc) = true := by
        intro habs
        rcases hanyEq.mp habs with ⟨x, hx, hxc⟩
        exact hpropB.mp hdj x hx hxc
      have hdisj2 : ∀ x ∈ p.cellsList, x ∉ st.covered := hpropB.mp hdj
      have haddeq : setAddAll st.covered (toPS p).cells = st.covered ++ p.cellsList := by
        rw [hcellseq]
        exact setAddAll_append p.cellsList st.covered hcnd hdisj2
      have hrel1 : stateRel mc dc
          ⟨sb.covered ||| p.bits, sb.solution ++ [toSolutionRec p]⟩
          ⟨setAddAll st.covered (toPS p).cells,
            st.solution ++ [⟨(toPS p).pieceIdx, (toPS p).r, (toPS p).c,
              sortCells (toPS p).cellsList⟩]⟩ := by
        refine ⟨?_, ?_, ?_, ?_⟩
        · simp only [haddeq]
          rw [hsol]
          rfl
        · simp only [haddeq]
          refine hnd.append ?_ ?_
          · exact hcnd
          · intro a ha ha'
            exact hdisj2 a ha' ha
        · simp only [haddeq]
          intro x hx
          rcases List.mem_append.mp hx with hx | hx
          · exact hvals x hx
          · exact hcells x hx
        · simp only [haddeq]
          rw [bitsOf_append, hcov, hbits]
      rcases hnB : nextB ⟨sb.covered ||| p.bits, sb.solution ++ [toSolutionRec p]⟩
        with ⟨bB, sB2⟩
      rcases hnT : nextT ⟨setAddAll st.covered (toPS p).cells,
          st.solution ++ [⟨(toPS p).pieceIdx, (toPS p).r, (toPS p).c,
            sortCells (toPS p).cellsList⟩]⟩ with ⟨bT, sT2⟩
      have hrel2 := hnext _ _ hrel1
      rw [hnB, hnT] at hrel2
      obtain ⟨hbeq, hrel2'⟩ := hrel2
      have hbeq' : bB = bT := hbeq
      cases bB with
      | true =>
        rw [List.map_cons, tryPlaceB_cons_true hdjB hnB,
          tryPlaceS_cons_true hdjS (hbeq' ▸ hnT)]
        exact ⟨rfl, hrel2'⟩
      | false =>
        have hbT : bT = false := hbeq'.symm
        subst hbT
        have hsB2 : sB2 = _ := hnextBf _ _ hnB
        have hsT2 : sT2 = _ := hnextTf _ _ hnT
        rw [List.map_cons, tryPlaceB_cons_false hdjB hnB, tryPlaceS_cons_false hdjS hnT]
        have hreB : (⟨sB2.covered ^^^ p.bits, sB2.solution.dropLast⟩ : BState) = sb := by
          rw [hsB2]
          rcases sb with ⟨cov, sol⟩
          simp [or_xor_cancel hdj, List.dropLast_concat]
        have hreT : (⟨setDeleteAll sT2.covered (toPS p).cells,
            sT2.solution.dropLast⟩ : TState) = st := by
          rw [hsT2]
          rcases st with ⟨cov, sol⟩
          simp only at haddeq ⊢
          rw [haddeq, hcellseq, setDeleteAll_restore hdisj2, List.dropLast_concat]
        rw [hreB, hreT]
        exact ih sb st hgood' ⟨hsol, hnd, hvals, hcov⟩
    · have hdjB : ¬(sb.covered &&& p.bits == 0) = true := by simpa using hdj
      have hdjS : ((toPS p).cells.any fun k =>
          st.covered.contains k || k == mc || k == dc) = true := by
        rw [hanyEq]
        by_contra habs
        push_neg at habs
        exact hdj (hpropB.mpr fun x hx hxc => habs x hx hxc)
      rw [List.map_cons, tryPlaceB_cons_skip hdjB, tryPlaceS_cons_skip hdjS]
      exact ih sb st hgood' ⟨hsol, hnd, hvals, hcov⟩

theorem toPS_cells_nodup (p : Placement) : (toPS p).cells.Nodup :=
  dedupKeys_nodup p.cellsList

theorem backtrack_bisim {mc dc : Cell} (hmc : mc ∈ monthCellList) (hdc : dc ∈ dayCellList) :
    ∀ pss, (∀ ps ∈ pss, ∀ p ∈ ps, goodPlacement mc dc p) →
    ∀ sb st, stateRel mc dc sb st →
      (backtrackB (targetFor mc dc) pss sb).1 =
        (backtrackS mc dc (pss.map (List.map toPS)) st).1 ∧
      stateRel mc dc (backtrackB (targetFor mc dc) pss sb).2
        (backtrackS mc dc (pss.map (List.map toPS)) st).2 := by
  intro pss
  induction pss with
  | nil =>
    intro _ sb st hrel
    obtain ⟨hsol, hnd, hvals, hcov⟩ := hrel
    constructor
    · simp only [backtrackB, backtrackS, List.map_nil]
      rw [hcov]
      exact terminal_equiv hmc hdc hnd hvals
    · exact ⟨hsol, hnd, hvals, hcov⟩
  | cons ps rest ih =>
    intro hgood sb st hrel
    have hgood' : ∀ qs ∈ rest, ∀ q ∈ qs, goodPlacement mc dc q := fun qs hqs q hq =>
      hgood qs (List.mem_cons_of_mem ps hqs) q hq
    have hSnodup : ∀ qs ∈ rest.map (List.map toPS), ∀ q ∈ qs, PlacementS.cells q |>.Nodup := by
      intro qs hqs q hq
      rcases List.mem_map.mp hqs with ⟨qs0, _, rfl⟩
      rcases List.mem_map.mp hq with ⟨q0, _, rfl⟩
      exact toPS_cells_nodup q0
    rw [backtrackB, List.map_cons, backtrackS]
    exact tryPlace_bisim (backtrackB_false (targetFor mc dc) rest)
      (fun s s' h => backtrackS_false mc dc (rest.map (List.map toPS)) s s' hSnodup h)
      (fun sb' st' hrel' => ih hgood' sb' st' hrel')
      ps sb st (hgood ps (List.mem_cons_self ps rest)) hrel

/-- C8: the bitboard solver variant and the set-of-keys solver variant of
solver.js are equivalent: on every (month, day) on which both are defined,
their per-piece candidate lists agree entry by entry (and hence the two
searches explore candidates in the same order), and they return the same
result — the same record sequence on success, the same no-solution value on
failure. -/
theorem solver_variants_equivalent {month : String} {day : Nat} {mc dc : Cell}
    (hm : months month = some mc) (hd : dayCell day = some dc) :
    allPlacementsS mc dc = (allPlacementsB mc dc).map (List.map toPS) ∧
    solveBacktrackB month day = solveBacktrackS month day := by
  have hmc := months_mem hm
  have hdc := dayCell_mem hd
  have hmcv := monthCellList_valid mc hmc
  have hdcv := dayCellList_valid dc hdc
  have hBeq := allPlacementsB_eq hmcv hdcv
  have hSeq := allPlacementsS_eq mc dc
  have hmapeq : allPlacementsS mc dc = (allPlacementsB mc dc).map (List.map toPS) := by
    rw [hSeq, hBeq]
  refine ⟨hmapeq, ?_⟩
  have hgood : ∀ ps ∈ allPlacementsB mc dc, ∀ p ∈ ps, goodPlacement mc dc p := by
    rw [hBeq]
    intro ps hps p hp
    rw [allPlacements] at hps
    rcases List.mem_map.mp hps with ⟨i, hi, rfl⟩
    have hi8 : i < 8 := List.mem_range.mp hi
    rcases placement_facts hi8 hp with ⟨_, hb, hcells, hnd, _⟩
    exact ⟨hb, hnd, hcells⟩
  have hrel0 : stateRel mc dc ⟨0, []⟩ ⟨[], []⟩ := by
    refine ⟨rfl, List.nodup_nil, ?_, rfl⟩
    intro x hx
    cases hx
  have hbis := backtrack_bisim hmc hdc (allPlacementsB mc dc) hgood ⟨0, []⟩ ⟨[], []⟩ hrel0
  rw [solveBacktrackB, solveBacktrackS]
  simp only [hm, hd]
  rw [hmapeq]
  rcases hbB : backtrackB (targetFor mc dc) (allPlacementsB mc dc) ⟨0, []⟩ with ⟨bB, sB⟩
  rcases hbS : backtrackS mc dc ((allPlacementsB mc dc).map (List.map toPS)) ⟨[], []⟩
    with ⟨bS, sT⟩
  rw [hbB, hbS] at hbis
  obtain ⟨hb1, hrel⟩ := hbis
  have hbeq : bB = bS := hb1
  subst hbeq
  cases bB with
  | false => rfl
  | true =>
    show some (some sB.solution) = some (some sT.solution)
    rw [hrel.1]

/-- Witness for C8 at (Nov, 4). -/
theorem solver_variants_equivalent_witness :
    allPlacementsS (1, 4) (2, 3) = (allPlacementsB (1, 4) (2, 3)).map (List.map toPS) ∧
    solveBacktrackB "Nov" 4 = solveBacktrackS "Nov" 4 :=
  @solver_variants_equivalent "Nov" 4 (1, 4) (2, 3) rfl rfl

/-! ### Witnesses -/

set_option maxRecDepth 100000 in
set_option maxHeartbeats 12000000 in
theorem nov4_selects : selects nov4Chain (allPlacements (1, 4) (2, 3)) = true := by rfl

theorem nov4_disj : disjChain 0 nov4Chain = true := by rfl

theorem nov4_target : (0 : Nat) ||| orBits nov4Chain = targetFor (1, 4) (2, 3) := by rfl

/-- The (Nov, 4) query succeeds: the concrete chain `nov4Chain` certifies,
via completeness of the backtracking search, that the solver returns a
solution. -/
theorem nov4_solve_some : ∃ sols, solveBacktrack "Nov" 4 = .ok (some sols) := by
  have hc := backtrack_complete (targetFor (1, 4) (2, 3)) (allPlacements (1, 4) (2, 3))
    ⟨0, []⟩ nov4Chain nov4_selects nov4_disj nov4_target
  rcases hb : backtrack (targetFor (1, 4) (2, 3)) (allPlacements (1, 4) (2, 3)) ⟨0, []⟩
    with ⟨b, s⟩
  rw [hb] at hc
  cases b with
  | false => cases hc
  | true =>
    exact ⟨s.solution.map toSolutionRec,
      solveBacktrack_eq_of_true rfl rfl (by rfl) hb⟩

/-- Witness for C1 at (Nov, 4): the returned records carry piece ids
0..7 in order. -/
theorem solveBacktrack_solution_spec_witness :
    Except.map (Option.map (List.map SolutionRec.pieceIdx)) (solveBacktrack "Nov" 4) =
      .ok (some [0, 1, 2, 3, 4, 5, 6, 7]) := by
  rcases nov4_solve_some with ⟨sols, hs⟩
  have h := @solveBacktrack_solution_spec "Nov" 4 (1, 4) (2, 3) sols rfl rfl hs
  rw [hs]
  show Except.ok (some (sols.map SolutionRec.pieceIdx)) = .ok (some [0, 1, 2, 3, 4, 5, 6, 7])
  have hmapeq : sols.map SolutionRec.pieceIdx = [0, 1, 2, 3, 4, 5, 6, 7] := by
    apply List.ext_get
    · rw [List.length_map, h.1]
      rfl
    · intro i h1 h2
      have hi : i < sols.length := by
        rw [List.length_map] at h1
        exact h1
      have hg : (sols.map SolutionRec.pieceIdx).get ⟨i, h1⟩ =
          (sols.get ⟨i, hi⟩).pieceIdx := by
        simp [List.get_eq_getElem]
      rw [hg, h.2.1 i hi]
      have hi8 : i < 8 := by
        rw [h.1] at hi
        exact hi
      interval_cases i <;> rfl
  rw [hmapeq]

set_option maxRecDepth 100000 in
set_option maxHeartbeats 12000000 in
/-- Witness for C2: the (Nov, 4) solution chain is a legal full chain, and
its covered bits equal the target. -/
theorem terminal_check_always_true_witness :
    orBits nov4Chain = targetFor (1, 4) (2, 3) ∧
    (orBits nov4Chain == targetFor (1, 4) (2, 3)) = true :=
  @terminal_check_always_true "Nov" 4 (1, 4) (2, 3) rfl rfl nov4Chain (by rfl) (by rfl)

/-- Witness for C3 at a concrete orientation and anchor. -/
theorem placement_enumerator_iff_witness :
    mkPlacement 0 [(0, 0), (0, 1), (1, 0), (1, 1), (2, 0), (2, 1)] 0 0 ∈
        placementsFor (1, 4) (2, 3) 0 (pieces.getD 0 []) ↔
      ∀ x ∈ ([(0, 0), (0, 1), (1, 0), (1, 1), (2, 0), (2, 1)] : List Cell).map (translate 0 0),
        x ∈ validCells ∧ x ≠ (1, 4) ∧ x ≠ (2, 3) :=
  (@placement_enumerator_iff (1, 4) (2, 3) 0 (pieces.getD 0 [])
    [(0, 0), (0, 1), (1, 0), (1, 1), (2, 0), (2, 1)] (by decide) 0 0
    (by decide) (by decide)).1

/-- Witness for C4: an unrecognized month and day 0 give the invalid-label
error, and (Jan, 1) returns a value. -/
theorem invalid_label_spec_witness :
    solveBacktrack "Foo" 0 = .error (invalidMsg "Foo" 0) ∧
    ∃ r, solveBacktrack "Jan" 1 = .ok r :=
  ⟨invalid_label_spec.1 "Foo" 0 (Or.inr (by decide)),
   invalid_label_spec.2 "Jan" 1 (0, 0) (2, 0) rfl rfl⟩

/-- Witness for C5 at (Jan, 1). -/
theorem no_solution_iff_witness :
    solveBacktrack "Jan" 1 = .ok none ↔
      ¬∃ ch, selects ch (allPlacements (0, 0) (2, 0)) = true ∧ disjChain 0 ch = true ∧
        orBits ch = targetFor (0, 0) (2, 0) :=
  @no_solution_iff "Jan" 1 (0, 0) (2, 0) rfl rfl

/-- Witness for C6 at the tall-L pentomino (piece 1). -/
theorem orientations_count_spec_witness :
    ((getAllOrientations ([(0, 0), (1, 0), (2, 0), (3, 0), (3, 1)] : List Cell)).length ≤ 8 ∧
      (getAllOrientations ([(0, 0), (1, 0), (2, 0), (3, 0), (3, 1)] : List Cell)).Nodup) ∧
    (getAllOrientations (pieces.getD 0 [])).length = 2 ∧
    (getAllOrientations (pieces.getD 7 [])).length = 8 :=
  ⟨orientations_count_spec.1 [(0, 0), (1, 0), (2, 0), (3, 0), (3, 1)] (by decide),
   orientations_count_spec.2⟩

/-- Witness for C7 at a concrete domino shape, translation (2, 3) and a
reordering. -/
theorem normalizePiece_canonical_witness :
    normalizePiece (([(0, 0), (0, 1)] : List Cell).map fun rc => (rc.1 + 2, rc.2 + 3)) =
      normalizePiece ([(0, 0), (0, 1)] : List Cell) ∧
    normalizePiece ([(2, 4), (2, 3)] : List Cell) =
      normalizePiece ([(0, 0), (0, 1)] : List Cell) :=
  ⟨normalizePiece_canonical.1 [(0, 0), (0, 1)] 2 3 (by decide),
   normalizePiece_canonical.2 [(0, 0), (0, 1)] [(2, 4), (2, 3)] 2 3 (by decide) (by decide)⟩

/-- Witness for C9 at (Nov, 4): both conjuncts instantiated, the second at
the solution whose existence `nov4_solve_some` certifies. -/
theorem solve_deterministic_witness :
    solveBacktrack "Nov" 4 = solveBacktrack "Nov" 4 := by
  rcases nov4_solve_some with ⟨sols, hs⟩
  have h := (solve_deterministic "Nov" 4).2 sols sols hs hs
  exact (solve_deterministic "Nov" 4).1

/-- Witness for C10 at a one-bit placement from the empty state. -/
theorem covered_invariant_undo_atomic_witness :
    undoState ⟨1, [⟨0, 0, 0, 1, [(0, 0)]⟩]⟩ ⟨0, 0, 0, 1, [(0, 0)]⟩ = (⟨0, []⟩ : SState) ∧
    (placeState ⟨0, []⟩ ⟨0, 0, 0, 1, [(0, 0)]⟩).covered =
      orBits (placeState ⟨0, []⟩ ⟨0, 0, 0, 1, [(0, 0)]⟩).solution :=
  ⟨covered_invariant_undo_atomic.2.2.1 5 [] ⟨0, []⟩ ⟨0, 0, 0, 1, [(0, 0)]⟩
      ⟨1, [⟨0, 0, 0, 1, [(0, 0)]⟩]⟩ (by decide) (by rfl),
   covered_invariant_undo_atomic.2.1 ⟨0, []⟩ ⟨0, 0, 0, 1, [(0, 0)]⟩ (by rfl)⟩

end CalendarPuzzle
